import Mathlib

/-!
Verification of the people-counting engine: a shallow embedding of the
`LineManager` boundary/crossing/deduplication engine and of the
`PersonTracker` detection-association and track-lifecycle manager,
together with proofs of the specified invariants and scenarios.

Coordinates are embedded as rationals (`ℚ`), timestamps as naturals
(milliseconds).  JavaScript objects/maps keyed by ids or strings are
embedded as association lists; JS `Set` becomes `Finset ℕ`.
Presentation-only data (names, colors, canvas drawing) is omitted: no
verified property mentions it.
-/

namespace Countin

/-- A 2-D point `{x, y}`. -/
structure Point where
  x : ℚ
  y : ℚ
deriving DecidableEq, Repr

/-- Per-boundary directional counters `{in, out}` (`in`/`out` are reserved
words in Lean, so the fields are `cin`/`cout`). -/
structure Counts where
  cin : Nat
  cout : Nat
deriving DecidableEq, Repr

/-- A deduplication record stored in `crossedTracks`:
`{timestamp, direction}`. -/
structure CrossRec where
  timestamp : Nat
  direction : String
deriving DecidableEq, Repr

/-- A crossing event `{lineId, lineName, personId, direction, position,
timestamp}` (the name is presentation-only and omitted). -/
structure Event where
  lineId : Nat
  personId : Nat
  direction : String
  position : ℚ × ℚ
  timestamp : Nat
deriving DecidableEq, Repr

/-- A boundary object created by `LineManager.addLine`: a counting line or an
area.  `bstart`/`bend` embed the source's `start`/`end` fields (`end` is a
reserved word); they are `Option` because polygon areas carry `points`
instead.  `peopleInside` is the area-membership set (`Set` in the source). -/
structure Boundary where
  id : Nat
  btype : String
  orientation : Option String
  bstart : Option Point
  bend : Option Point
  points : Option (List Point)
  peopleInside : Finset Nat
deriving DecidableEq

/-- The mutable state of a `LineManager` (drawing/UI state omitted). -/
structure LMState where
  lines : List Boundary
  nextLineId : Nat
  lineCrossings : List (Nat × Counts)
  crossedTracks : List (List Char × CrossRec)
deriving DecidableEq

/-! ### Association lists

JS objects keyed by ids and the `crossedTracks : Map` are embedded as
association lists with the usual get/set/delete operations. -/
/-- `obj[k]` / `map.get(k)`. -/
def alGet {κ ν : Type} [DecidableEq κ] (k : κ) : List (κ × ν) → Option ν
  | [] => none
  | (k', v) :: rest => if k' = k then some v else alGet k rest

/-- `obj[k] = v` / `map.set(k, v)`. -/
def alSet {κ ν : Type} [DecidableEq κ] (k : κ) (v : ν) : List (κ × ν) → List (κ × ν)
  | [] => [(k, v)]
  | (k', v') :: rest => if k' = k then (k, v) :: rest else (k', v') :: alSet k v rest

/-- `delete obj[k]` / `map.delete(k)`. -/
def alDel {κ ν : Type} [DecidableEq κ] (k : κ) : List (κ × ν) → List (κ × ν)
  | [] => []
  | (k', v') :: rest => if k' = k then rest else (k', v') :: alDel k rest

/-! ### Decimal rendering of ids

The deduplication map is keyed by the template string
`` `${person.id}-${line.id}` ``, so the embedding renders naturals in
decimal exactly as JS number-to-string does. -/
/-- The decimal digit character for `d < 10`. -/
def digitChar (d : Nat) : Char :=
  ['0', '1', '2', '3', '4', '5', '6', '7', '8', '9'].getD d '0'

/-- Inverse of `digitChar` on digits. -/
def charVal (c : Char) : Nat :=
  if c = '0' then 0 else if c = '1' then 1 else if c = '2' then 2
  else if c = '3' then 3 else if c = '4' then 4 else if c = '5' then 5
  else if c = '6' then 6 else if c = '7' then 7 else if c = '8' then 8
  else if c = '9' then 9 else 10

/-- Fuel-driven decimal rendering (most significant digit first). -/
def natCharsAux : Nat → Nat → List Char
  | 0, n => [digitChar n]
  | fuel + 1, n =>
    if n < 10 then [digitChar n]
    else natCharsAux fuel (n / 10) ++ [digitChar (n % 10)]

/-- JS decimal rendering of a natural number. -/
def natChars (n : Nat) : List Char := natCharsAux n n

/-- Decode a digit string back to a natural number. -/
def decodeChars (l : List Char) : Nat := l.foldl (fun a c => 10 * a + charVal c) 0

/-- The deduplication key `` `${person.id}-${line.id}` ``. -/
def crossKey (person lineId : Nat) : List Char :=
  natChars person ++ '-' :: natChars lineId

/-! ### Geometry: `LineManager.lineIntersection`, side test, direction,
ray-casting containment -/
/-- `LineManager.lineIntersection`: parametric segment/segment intersection;
`null` when the determinant is ~0 (`|den| < 0.0001`) or an intersection
parameter leaves `[0,1]`. -/
def lineIntersection (p1 p2 p3 p4 : ℚ × ℚ) : Option (ℚ × ℚ) :=
  let x1 := p1.1; let y1 := p1.2
  let x2 := p2.1; let y2 := p2.2
  let x3 := p3.1; let y3 := p3.2
  let x4 := p4.1; let y4 := p4.2
  let denominator := (y4 - y3) * (x2 - x1) - (x4 - x3) * (y2 - y1)
  if |denominator| < 1 / 10000 then none
  else
    let ua := ((x4 - x3) * (y1 - y3) - (y4 - y3) * (x1 - x3)) / denominator
    let ub := ((x2 - x1) * (y1 - y3) - (y2 - y1) * (x1 - x3)) / denominator
    if ua < 0 ∨ ua > 1 ∨ ub < 0 ∨ ub > 1 then none
    else some (x1 + ua * (x2 - x1), y1 + ua * (y2 - y1))

/-- The signed cross-product "side" helper `getSide` from
`determineLineCrossingDirection`. -/
def getSide (px py x1 y1 x2 y2 : ℚ) : ℚ :=
  (x2 - x1) * (py - y1) - (y2 - y1) * (px - x1)

/-- The vertical-line branch of `determineLineCrossingDirection`. -/
def dirVerticalBranch (prevSide currSide : ℚ) : String :=
  if prevSide ≤ 0 ∧ currSide > 0 then "in" else "out"

/-- The horizontal-line branch of `determineLineCrossingDirection`. -/
def dirHorizontalBranch (prevSide currSide : ℚ) : String :=
  if prevSide ≤ 0 ∧ currSide > 0 then "in" else "out"

/-- `LineManager.determineLineCrossingDirection`. -/
def determineLineCrossingDirection (p1 p2 lineStart lineEnd : ℚ × ℚ) : String :=
  let prevSide := getSide p1.1 p1.2 lineStart.1 lineStart.2 lineEnd.1 lineEnd.2
  let currSide := getSide p2.1 p2.2 lineStart.1 lineStart.2 lineEnd.1 lineEnd.2
  let dx := lineEnd.1 - lineStart.1
  let dy := lineEnd.2 - lineStart.2
  let isVertical := |dx| < |dy|
  if isVertical then dirVerticalBranch prevSide currSide
  else dirHorizontalBranch prevSide currSide

/-- `LineManager.isPointInPolygon`: odd-crossing ray casting over the ordered
vertex list (loop indices `i` with `j` the previous vertex, wrapping). -/
def isPointInPolygon (point : ℚ × ℚ) (polygon : List Point) : Bool :=
  let n := polygon.length
  (List.range n).foldl
    (fun inside i =>
      let j := if i = 0 then n - 1 else i - 1
      let vi := polygon.getD i ⟨0, 0⟩
      let vj := polygon.getD j ⟨0, 0⟩
      let intersect :=
        (decide (vi.y > point.2) != decide (vj.y > point.2)) &&
        decide (point.1 < (vj.x - vi.x) * (point.2 - vi.y) / (vj.y - vi.y) + vi.x)
      if intersect then !inside else inside)
    false

/-! ### LineManager state operations -/
/-- `this.lineCrossings[id][direction]++`, initialising the entry to
`{in: 0, out: 0}` first when absent (the code only ever passes
`"in"` or `"out"`; any other string would hit the `out` field here). -/
def bumpCounter (cross : List (Nat × Counts)) (id : Nat) (direction : String) :
    List (Nat × Counts) :=
  let base := (alGet id cross).getD ⟨0, 0⟩
  let updated := if direction = "in" then { base with cin := base.cin + 1 }
    else { base with cout := base.cout + 1 }
  alSet id updated cross

/-- `LineManager.checkAreaCrossing`: polygon (or legacy rectangle) containment
with the `peopleInside` enter/exit state machine.  Returns the updated
counters, the updated area object and the emitted event, if any. -/
def checkAreaCrossing (cross : List (Nat × Counts)) (area : Boundary)
    (person : Nat) (currentPos : ℚ × ℚ) (now : Nat) :
    List (Nat × Counts) × Boundary × Option Event :=
  let isInside : Bool :=
    match area.points with
    | some pts => isPointInPolygon currentPos pts
    | none =>
      match area.bstart, area.bend with
      | some st, some en =>
        let areaX := min st.x en.x
        let areaY := min st.y en.y
        let areaWidth := |en.x - st.x|
        let areaHeight := |en.y - st.y|
        decide (areaX ≤ currentPos.1 ∧ currentPos.1 ≤ areaX + areaWidth ∧
                areaY ≤ currentPos.2 ∧ currentPos.2 ≤ areaY + areaHeight)
      | _, _ => false
  let wasInside : Bool := decide (person ∈ area.peopleInside)
  if isInside && !wasInside then
    let area' := { area with peopleInside := insert person area.peopleInside }
    let cross' := bumpCounter cross area.id "in"
    (cross', area', some ⟨area.id, person, "in", currentPos, now⟩)
  else if !isInside && wasInside then
    let area' := { area with peopleInside := area.peopleInside.erase person }
    let cross' := bumpCounter cross area.id "out"
    (cross', area', some ⟨area.id, person, "out", currentPos, now⟩)
  else (cross, area, none)

/-- Result of the boundary loop of `checkLineCrossings`. -/
structure CLCRes where
  lines : List Boundary
  cross : List (Nat × Counts)
  ct : List (List Char × CrossRec)
  events : List Event

/-- The `for (const line of this.lines)` loop body of
`LineManager.checkLineCrossings`, folded over the boundary list.
`pp`/`cp` are the already-scaled previous/current positions. -/
def clcAux (person : Nat) (pp cp : ℚ × ℚ) (now : Nat) :
    List Boundary → List (Nat × Counts) → List (List Char × CrossRec) → CLCRes
  | [], cross, ct => ⟨[], cross, ct, []⟩
  | b :: rest, cross, ct =>
    if b.btype = "area" then
      let r0 := checkAreaCrossing cross b person cp now
      let r := clcAux person pp cp now rest r0.1 ct
      ⟨r0.2.1 :: r.lines, r.cross, r.ct, r0.2.2.toList ++ r.events⟩
    else
      match b.bstart, b.bend with
      | some ls, some le =>
        match lineIntersection pp cp (ls.x, ls.y) (le.x, le.y) with
        | none =>
          let r := clcAux person pp cp now rest cross ct
          ⟨b :: r.lines, r.cross, r.ct, r.events⟩
        | some ipt =>
          let key := crossKey person b.id
          let dup : Bool :=
            match alGet key ct with
            | some rec0 => decide (now - rec0.timestamp < 2000)
            | none => false
          if dup then
            let r := clcAux person pp cp now rest cross ct
            ⟨b :: r.lines, r.cross, r.ct, r.events⟩
          else
            let direction := determineLineCrossingDirection pp cp (ls.x, ls.y) (le.x, le.y)
            let cross₁ := bumpCounter cross b.id direction
            let ct₁ := alSet key ⟨now, direction⟩ ct
            let r := clcAux person pp cp now rest cross₁ ct₁
            ⟨b :: r.lines, r.cross, r.ct, ⟨b.id, person, direction, ipt, now⟩ :: r.events⟩
      | _, _ =>
        -- a `line`-typed boundary created by `addLine` always has both
        -- endpoints; missing endpoints cannot cross anything
        let r := clcAux person pp cp now rest cross ct
        ⟨b :: r.lines, r.cross, r.ct, r.events⟩

/-- `LineManager.checkLineCrossings`.  `sx`/`sy` are the canvas/video scale
factors and `now` the value of `Date.now()` during the call; the guard
mirrors the falsy check on `person.id`. -/
def checkLineCrossings (s : LMState) (person : Nat) (prevPos currentPos : ℚ × ℚ)
    (sx sy : ℚ) (now : Nat) : LMState × List Event :=
  if person = 0 then (s, [])
  else
    let scaledPrev := (prevPos.1 * sx, prevPos.2 * sy)
    let scaledCurr := (currentPos.1 * sx, currentPos.2 * sy)
    let r := clcAux person scaledPrev scaledCurr now s.lines s.lineCrossings s.crossedTracks
    ({ s with lines := r.lines, lineCrossings := r.cross, crossedTracks := r.ct },
      r.events)

/-- A boundary-creation request as passed to `addLine` (name and color are
presentation-only and omitted). -/
structure LineReq where
  rtype : Option String
  rstart : Option Point
  rend : Option Point
  rpoints : Option (List Point)

/-- The boundary object built by `LineManager.addLine` (no validation is
performed on the request).  A non-area boundary never uses `peopleInside`;
the source simply omits the field there. -/
def mkBoundary (s : LMState) (req : LineReq) : Boundary :=
  let lineId := s.nextLineId
  let t := req.rtype.getD "line"
  let orientation : Option String :=
    if t = "line" then
      match req.rstart, req.rend with
      | some st, some en =>
        some (if |en.x - st.x| < |en.y - st.y| then "vertical" else "horizontal")
      | _, _ => none
    else none
  if t = "area" ∧ req.rpoints.isSome then
    { id := lineId, btype := t, orientation := orientation, bstart := none,
      bend := none, points := req.rpoints, peopleInside := ∅ }
  else
    { id := lineId, btype := t, orientation := orientation, bstart := req.rstart,
      bend := req.rend, points := none, peopleInside := ∅ }

/-- `LineManager.addLine`: assigns the next id, initialises the crossing
counters for it and appends the new boundary.  Returns the new state and the
added boundary. -/
def addLine (s : LMState) (req : LineReq) : LMState × Boundary :=
  let newLine := mkBoundary s req
  ({ s with
      nextLineId := s.nextLineId + 1,
      lineCrossings := alSet s.nextLineId ⟨0, 0⟩ s.lineCrossings,
      lines := s.lines ++ [newLine] }, newLine)

/-- JS `String.prototype.includes`: substring containment. -/
def containsSub (needle : List Char) : List Char → Bool
  | [] => needle.isEmpty
  | c :: rest => needle.isPrefixOf (c :: rest) || containsSub needle rest

/-- `LineManager.removeLine`: removes the first boundary with the given id,
deletes its counters, and deletes every `crossedTracks` entry whose key
contains `` `-${lineId}` `` as a substring. -/
def removeLine (s : LMState) (lineId : Nat) : LMState × Bool :=
  match s.lines.findIdx? (fun l => l.id == lineId) with
  | some idx =>
    ({ s with
        lines := s.lines.eraseIdx idx,
        lineCrossings := alDel lineId s.lineCrossings,
        crossedTracks := s.crossedTracks.filter
          (fun kv => !containsSub ('-' :: natChars lineId) kv.1) }, true)
  | none => (s, false)

/-- `LineManager.resetCounts`: zeroes every existing counter entry and clears
the deduplication map (the `peopleInside` sets are not touched). -/
def resetCounts (s : LMState) : LMState :=
  { s with
      lineCrossings := s.lineCrossings.map (fun kv => (kv.1, ⟨0, 0⟩)),
      crossedTracks := [] }

/-- The state of a freshly constructed `LineManager`. -/
def initialLMState : LMState :=
  { lines := [], nextLineId := 1, lineCrossings := [], crossedTracks := [] }

/-! ### PersonTracker -/
/-- A bounding box `[x, y, width, height]`. -/
structure BBox where
  x : ℚ
  y : ℚ
  w : ℚ
  h : ℚ
deriving DecidableEq, Repr

/-- A detection `{bbox, class, confidence}` (`class` is reserved, hence
`cls`; the synthetic-data `isMovingAcross` flag is omitted). -/
structure Det where
  bbox : BBox
  cls : String
  score : ℚ
deriving DecidableEq, Repr

/-- Placeholder detection used for (always in-bounds) list indexing. -/
def defaultDet : Det := ⟨⟨0, 0, 0, 0⟩, "", 0⟩

/-- A track history entry `{timestamp, bbox, centroid, score}`. -/
structure HistEntry where
  timestamp : Nat
  bbox : BBox
  centroid : ℚ × ℚ
  score : ℚ
deriving DecidableEq, Repr

/-- A track `{id, bbox, lastSeen, history}`. -/
structure Track where
  id : Nat
  bbox : BBox
  lastSeen : Nat
  history : List HistEntry
deriving DecidableEq, Repr

/-- The mutable state of a `PersonTracker` (model/debug fields omitted;
`tracks` and `disappeared` are JS objects keyed by track id). -/
structure PTState where
  confidenceThreshold : ℚ
  maxDisappearedFrames : Nat
  historyLength : Nat
  nextTrackId : Nat
  tracks : List (Nat × Track)
  disappeared : List (Nat × Nat)
deriving DecidableEq

/-- The result object of `updateTracks`/`handleDisappearances`. -/
structure TrackingResult where
  tracks : List (Nat × Track)
  updated : List Nat
  disappeared : List Nat
deriving DecidableEq

/-- `PersonTracker.detectPeople`: adapter call result filtered to
`class === 'person'` with `score >= confidenceThreshold`; a thrown error is
caught and yields the empty detection list. -/
def detectPeople (confidenceThreshold : ℚ) (result : Except Unit (List Det)) :
    List Det :=
  match result with
  | .ok preds =>
    preds.filter (fun p => p.cls == "person" && decide (p.score ≥ confidenceThreshold))
  | .error _ => []

/-- `PersonTracker.initializeTrack`. -/
def initializeTrack (trackId : Nat) (det : Det) (now : Nat) : Track :=
  let centroid := (det.bbox.x + det.bbox.w / 2, det.bbox.y + det.bbox.h / 2)
  { id := trackId, bbox := det.bbox, lastSeen := now,
    history := [⟨now, det.bbox, centroid, det.score⟩] }

/-- `PersonTracker.updateTrack`: refresh bbox and `lastSeen`, push a history
entry, and `shift()` the oldest one out when the cap is exceeded. -/
def updateTrack (historyLength : Nat) (track : Track) (det : Det) (now : Nat) :
    Track :=
  let centroid := (det.bbox.x + det.bbox.w / 2, det.bbox.y + det.bbox.h / 2)
  let history := track.history ++ [⟨now, det.bbox, centroid, det.score⟩]
  { track with
      bbox := det.bbox, lastSeen := now,
      history := if history.length > historyLength then history.tail else history }

/-- `PersonTracker.calculateIoU`. -/
def calculateIoU (bbox1 bbox2 : BBox) : ℚ :=
  let b1x2 := bbox1.x + bbox1.w
  let b1y2 := bbox1.y + bbox1.h
  let b2x2 := bbox2.x + bbox2.w
  let b2y2 := bbox2.y + bbox2.h
  let xOverlap := max 0 (min b1x2 b2x2 - max bbox1.x bbox2.x)
  let yOverlap := max 0 (min b1y2 b2y2 - max bbox1.y bbox2.y)
  let intersectionArea := xOverlap * yOverlap
  let box1Area := (b1x2 - bbox1.x) * (b1y2 - bbox1.y)
  let box2Area := (b2x2 - bbox2.x) * (b2y2 - bbox2.y)
  let unionArea := box1Area + box2Area - intersectionArea
  if unionArea > 0 then intersectionArea / unionArea else 0

/-- `PersonTracker.calculateIoUMatrix`: one row per live track (in object-key
order), one column per detection. -/
def calculateIoUMatrix (tracks : List (Nat × Track)) (dets : List Det) :
    List (List ℚ) :=
  tracks.map (fun kv => dets.map (fun d => calculateIoU kv.2.bbox d.bbox))

/-- The inner argmax loop of `matchDetectionsToTracks`: highest-IoU detection
index not yet matched.  The source initialises `maxIoU = -1, maxIdx = -1`;
the `-1` index sentinel is embedded as `none`. -/
def bestIdx (ious : List ℚ) (used : Finset Nat) : ℚ × Option Nat :=
  ious.enum.foldl
    (fun acc ji => if ji.1 ∉ used ∧ ji.2 > acc.1 then (ji.2, some ji.1) else acc)
    (-1, none)

/-- The outer greedy loop of `matchDetectionsToTracks`: per track (in order),
take the best unmatched detection and accept when `maxIoU >= minIoU = 0.3`.
When the best IoU is `-1` no index was selected (`none`); the source cannot
accept in that case since `-1 < 0.3`. -/
def greedyLoop : List (Nat × List ℚ) → Finset Nat → List (Nat × Nat) × Finset Nat
  | [], used => ([], used)
  | (tid, ious) :: rest, used =>
    let b := bestIdx ious used
    if b.1 ≥ 3 / 10 then
      match b.2 with
      | some j =>
        let r := greedyLoop rest (insert j used)
        ((tid, j) :: r.1, r.2)
      | none => greedyLoop rest used
    else greedyLoop rest used

/-- `PersonTracker.matchDetectionsToTracks`: returns the matched
`(trackId, detectionIdx)` pairs and the unmatched detection indices. -/
def matchDetectionsToTracks (tracks : List (Nat × Track))
    (iouMatrix : List (List ℚ)) (dets : List Det) :
    List (Nat × Nat) × List Nat :=
  if iouMatrix.isEmpty then ([], List.range dets.length)
  else
    let trackIds := tracks.map Prod.fst
    let r := greedyLoop (trackIds.zip iouMatrix) ∅
    (r.1, (List.range dets.length).filter (fun i => decide (i ∉ r.2)))

/-- Accumulator of the disappearance loop in `handleDisappearances`. -/
structure HDAcc where
  current : List (Nat × Track)
  dis : List (Nat × Nat)
  removed : List Nat

/-- The `for (const trackId in this.tracks)` loop of
`handleDisappearances`: every old track absent from `currentTracks` gets its
counter incremented; past the threshold it is slated for removal, otherwise
it is kept with its last known data. -/
def hdLoop (maxD : Nat) : List (Nat × Track) → List (Nat × Track) →
    List (Nat × Nat) → HDAcc
  | [], cur, dm => ⟨cur, dm, []⟩
  | kv :: rest, cur, dm =>
    match alGet kv.1 cur with
    | some _ => hdLoop maxD rest cur dm
    | none =>
      let d := (alGet kv.1 dm).getD 0 + 1
      let dm' := alSet kv.1 d dm
      if d > maxD then
        let r := hdLoop maxD rest cur dm'
        ⟨r.current, r.dis, kv.1 :: r.removed⟩
      else hdLoop maxD rest (alSet kv.1 kv.2 cur) dm'

/-- `PersonTracker.handleDisappearances` (the counters of removed tracks are
deleted at the end). -/
def handleDisappearances (s : PTState) (current : List (Nat × Track))
    (updated : List Nat) : PTState × TrackingResult :=
  let r := hdLoop s.maxDisappearedFrames s.tracks current s.disappeared
  let dm := r.removed.foldl (fun m i => alDel i m) r.dis
  ({ s with tracks := r.current, disappeared := dm },
    ⟨r.current, updated, r.removed⟩)

/-- New-track creation for the no-existing-tracks branch of `updateTracks`
(this branch does not initialise `disappeared` counters). -/
structure SpawnAllRes where
  nextId : Nat
  current : List (Nat × Track)
  updated : List Nat

/-- `detections.forEach(...)` of the no-existing-tracks branch. -/
def spawnAllLoop (now : Nat) : List Det → Nat → SpawnAllRes
  | [], nid => ⟨nid, [], []⟩
  | det :: rest, nid =>
    let tr := initializeTrack nid det now
    let r := spawnAllLoop now rest (nid + 1)
    ⟨r.nextId, (nid, tr) :: r.current, nid :: r.updated⟩

/-- Accumulator shared by the matched-update and unmatched-spawn loops of
`updateTracks`. -/
structure UTAcc where
  nextId : Nat
  current : List (Nat × Track)
  dis : List (Nat × Nat)
  updated : List Nat

/-- The matched-tracks loop of `updateTracks`: refresh each matched track and
zero its `disappeared` counter (a matched track id always exists in
`this.tracks`; the `none` arm is unreachable). -/
def updateMatchedLoop (histLen : Nat) (tracksOld : List (Nat × Track))
    (dets : List Det) (now : Nat) : List (Nat × Nat) → UTAcc → UTAcc
  | [], acc => acc
  | p :: rest, acc =>
    match alGet p.1 tracksOld with
    | some tr =>
      let tr' := updateTrack histLen tr (dets.getD p.2 defaultDet) now
      updateMatchedLoop histLen tracksOld dets now rest
        ⟨acc.nextId, alSet p.1 tr' acc.current, alSet p.1 0 acc.dis,
          acc.updated ++ [p.1]⟩
    | none => updateMatchedLoop histLen tracksOld dets now rest acc

/-- The unmatched-detections loop of `updateTracks`: spawn a fresh track per
unmatched detection index with a zeroed `disappeared` counter. -/
def spawnLoop (dets : List Det) (now : Nat) : List Nat → UTAcc → UTAcc
  | [], acc => acc
  | j :: rest, acc =>
    let tr := initializeTrack acc.nextId (dets.getD j defaultDet) now
    spawnLoop dets now rest
      ⟨acc.nextId + 1, alSet acc.nextId tr acc.current,
        alSet acc.nextId 0 acc.dis, acc.updated ++ [acc.nextId]⟩

/-- `PersonTracker.updateTracks`. -/
def updateTracks (s : PTState) (dets : List Det) (now : Nat) :
    PTState × TrackingResult :=
  if dets.isEmpty then handleDisappearances s [] []
  else if s.tracks.isEmpty then
    let r := spawnAllLoop now dets s.nextTrackId
    ({ s with nextTrackId := r.nextId, tracks := r.current },
      ⟨r.current, r.updated, []⟩)
  else
    let iouMatrix := calculateIoUMatrix s.tracks dets
    let m := matchDetectionsToTracks s.tracks iouMatrix dets
    let um := updateMatchedLoop s.historyLength s.tracks dets now m.1
      ⟨s.nextTrackId, [], s.disappeared, []⟩
    let sp := spawnLoop dets now m.2 um
    handleDisappearances
      { s with nextTrackId := sp.nextId, disappeared := sp.dis }
      sp.current sp.updated

/-- `PersonTracker.processFrame`, restricted to its tracking effect: the
detector adapter's outcome (a result or a thrown error) is turned into a
detection list by `detectPeople` and fed to `updateTracks`. -/
def processFrameTracks (s : PTState) (detResult : Except Unit (List Det))
    (now : Nat) : PTState × TrackingResult :=
  updateTracks s (detectPeople s.confidenceThreshold detResult) now

/-- A registry state with one rectangular area whose `peopleInside` holds
track 4, used against the reset claim. -/
def c3State : LMState :=
  { lines := [{ id := 1, btype := "area", orientation := none,
                bstart := some ⟨0, 0⟩, bend := some ⟨100, 100⟩, points := none,
                peopleInside := {4} }],
    nextLineId := 2,
    lineCrossings := [(1, ⟨2, 1⟩)],
    crossedTracks := [(crossKey 4 1, ⟨500, "in"⟩)] }

/-- A creation request for a zero-length (degenerate) line. -/
def c8Req : LineReq :=
  { rtype := some "line", rstart := some ⟨5, 5⟩, rend := some ⟨5, 5⟩,
    rpoints := none }

/-- Scenario A's vertical line at `x = 100`, drawn downward (start above
end). -/
def c2ReqDown : LineReq :=
  { rtype := some "line", rstart := some ⟨100, 0⟩, rend := some ⟨100, 200⟩,
    rpoints := none }

/-- Scenario A's vertical line at `x = 100`, drawn upward (start below
end). -/
def c2ReqUp : LineReq :=
  { rtype := some "line", rstart := some ⟨100, 200⟩, rend := some ⟨100, 0⟩,
    rpoints := none }

/-- A simple stored line boundary with the given id. -/
def mkLineB (n : Nat) : Boundary :=
  { id := n, btype := "line", orientation := some "horizontal",
    bstart := some ⟨0, 0⟩, bend := some ⟨10, 0⟩, points := none,
    peopleInside := ∅ }

/-- Registry with boundaries 1 and 12 and a dedup record for the pair
(track 5, boundary 12). -/
def c10State : LMState :=
  { lines := [mkLineB 1, mkLineB 12],
    nextLineId := 13,
    lineCrossings := [(1, ⟨0, 0⟩), (12, ⟨1, 0⟩)],
    crossedTracks := [(crossKey 5 12, ⟨1000, "in"⟩)] }

/-- The history entry `{timestamp, bbox, centroid, score}` appended by
`updateTrack` (and stored singly by `initializeTrack`). -/
def histEntryOf (det : Det) (now : Nat) : HistEntry :=
  ⟨now, det.bbox, (det.bbox.x + det.bbox.w / 2, det.bbox.y + det.bbox.h / 2),
    det.score⟩

/-! ### Crossing traces and the cooldown deduplicator -/
/-- One `checkLineCrossings` call of a processing trace: a track's motion
segment evaluated at time `now`. -/
structure Attempt where
  person : Nat
  prevPos : ℚ × ℚ
  currPos : ℚ × ℚ
  now : Nat

/-- A sequence of `checkLineCrossings` calls, collecting all emitted
events. -/
def runAttempts (s : LMState) (sx sy : ℚ) : List Attempt → LMState × List Event
  | [] => (s, [])
  | a :: rest =>
    let r := checkLineCrossings s a.person a.prevPos a.currPos sx sy a.now
    let r2 := runAttempts r.1 sx sy rest
    (r2.1, r.2 ++ r2.2)

/-- A rectangular area boundary used against the cooldown claim. -/
def c1Area : Boundary :=
  { id := 1, btype := "area", orientation := none, bstart := some ⟨0, 0⟩,
    bend := some ⟨100, 100⟩, points := none, peopleInside := ∅ }

/-- Registry holding only the rectangular area `c1Area`. -/
def c1AreaState : LMState :=
  { lines := [c1Area], nextLineId := 2, lineCrossings := [(1, ⟨0, 0⟩)],
    crossedTracks := [] }

/-! ## Theorems -/

@[simp] theorem alGet_nil {κ ν : Type} [DecidableEq κ] (k : κ) :
    alGet (ν := ν) k [] = none := rfl

theorem alGet_alSet {κ ν : Type} [DecidableEq κ] (k k' : κ) (v : ν)
    (l : List (κ × ν)) :
    alGet k (alSet k' v l) = if k' = k then some v else alGet k l := by
  induction l with
  | nil => simp [alGet, alSet]
  | cons hd tl ih =>
    obtain ⟨k₀, v₀⟩ := hd
    by_cases h₀ : k₀ = k'
    · subst h₀
      by_cases h₁ : k₀ = k <;> simp [alGet, alSet, h₁]
    · by_cases h₁ : k₀ = k
      · subst h₁
        have : ¬ k' = k₀ := fun h => h₀ h.symm
        simp [alGet, alSet, h₀, this]
      · simp [alGet, alSet, h₀, h₁, ih]

theorem alGet_alSet_self {κ ν : Type} [DecidableEq κ] (k : κ) (v : ν)
    (l : List (κ × ν)) : alGet k (alSet k v l) = some v := by
  simp [alGet_alSet]

theorem alGet_alSet_ne {κ ν : Type} [DecidableEq κ] {k k' : κ} (v : ν)
    (l : List (κ × ν)) (h : k' ≠ k) :
    alGet k (alSet k' v l) = alGet k l := by
  simp [alGet_alSet, h]

theorem charVal_digitChar {d : Nat} (h : d < 10) : charVal (digitChar d) = d := by
  interval_cases d <;> rfl

theorem digitChar_ne_dash (d : Nat) : digitChar d ≠ '-' := by
  by_cases h : d < 10
  · interval_cases d <;> decide
  · have h10 : (10 : Nat) ≤ d := Nat.le_of_not_lt h
    unfold digitChar
    rw [List.getD_eq_default _ _ (by simpa using h10)]
    decide

theorem decodeChars_append_digit (l : List Char) (c : Char) :
    decodeChars (l ++ [c]) = 10 * decodeChars l + charVal c := by
  simp [decodeChars, List.foldl_append]

theorem decodeChars_natCharsAux {fuel n : Nat} (h : n ≤ fuel) :
    decodeChars (natCharsAux fuel n) = n := by
  induction fuel using Nat.strong_induction_on generalizing n with
  | _ fuel ih =>
    match fuel with
    | 0 =>
      have hn : n = 0 := Nat.le_zero.mp h
      subst hn; rfl
    | fuel + 1 =>
      by_cases hlt : n < 10
      · simp [natCharsAux, hlt, decodeChars, charVal_digitChar hlt]
      · have h10 : 10 ≤ n := Nat.le_of_not_lt hlt
        have hdiv : n / 10 ≤ fuel := by
          have : n / 10 < n := Nat.div_lt_self (by omega) (by omega)
          omega
        have := ih fuel (Nat.lt_succ_self fuel) hdiv
        simp only [natCharsAux, hlt, if_false, decodeChars_append_digit, this]
        rw [charVal_digitChar (Nat.mod_lt n (by omega))]
        omega

theorem decodeChars_natChars (n : Nat) : decodeChars (natChars n) = n :=
  decodeChars_natCharsAux (Nat.le_refl n)

theorem natChars_injective : Function.Injective natChars := by
  intro m n h
  have := decodeChars_natChars m
  rw [h, decodeChars_natChars] at this
  exact this.symm

theorem dash_not_mem_natCharsAux (fuel n : Nat) : '-' ∉ natCharsAux fuel n := by
  induction fuel generalizing n with
  | zero => simpa [natCharsAux] using (digitChar_ne_dash n).symm
  | succ fuel ih =>
    by_cases hlt : n < 10
    · simpa [natCharsAux, hlt] using (digitChar_ne_dash n).symm
    · simp only [natCharsAux, hlt, if_false, List.mem_append, List.mem_singleton]
      rintro (hmem | hmem)
      · exact ih (n / 10) hmem
      · exact digitChar_ne_dash (n % 10) hmem.symm

theorem dash_not_mem_natChars (n : Nat) : '-' ∉ natChars n :=
  dash_not_mem_natCharsAux n n

theorem append_dash_injective :
    ∀ (a a' c c' : List Char), '-' ∉ a → '-' ∉ a' →
      a ++ '-' :: c = a' ++ '-' :: c' → a = a' ∧ c = c' := by
  intro a
  induction a with
  | nil =>
    intro a' c c' _ ha' h
    cases a' with
    | nil => simpa using h
    | cons x t =>
      exfalso
      have hx : x = '-' := by
        have := congrArg (fun l => List.head? l) h
        simpa using this.symm
      exact ha' (hx ▸ List.mem_cons_self x t)
  | cons x t ih =>
    intro a' c c' ha ha' h
    cases a' with
    | nil =>
      exfalso
      have hx : x = '-' := by
        have := congrArg (fun l => List.head? l) h
        simpa using this
      exact ha (hx ▸ List.mem_cons_self x t)
    | cons y t' =>
      simp only [List.cons_append, List.cons.injEq] at h
      obtain ⟨hxy, hrest⟩ := h
      have ht : '-' ∉ t := fun hm => ha (List.mem_cons_of_mem x hm)
      have ht' : '-' ∉ t' := fun hm => ha' (List.mem_cons_of_mem y hm)
      obtain ⟨h1, h2⟩ := ih t' c c' ht ht' hrest
      exact ⟨by rw [hxy, h1], h2⟩

theorem crossKey_injective {t b t' b' : Nat}
    (h : crossKey t b = crossKey t' b') : t = t' ∧ b = b' := by
  obtain ⟨h1, h2⟩ := append_dash_injective _ _ _ _
    (dash_not_mem_natChars t) (dash_not_mem_natChars t') h
  exact ⟨natChars_injective h1, natChars_injective h2⟩

/-! ### Further association-list lemmas -/
theorem alGet_eq_none_iff {κ ν : Type} [DecidableEq κ] (k : κ) (l : List (κ × ν)) :
    alGet k l = none ↔ k ∉ l.map Prod.fst := by
  induction l with
  | nil => simp [alGet]
  | cons hd tl ih =>
    obtain ⟨k₀, v₀⟩ := hd
    by_cases h : k₀ = k
    · subst h
      simp [alGet]
    · have hkk : ¬ k = k₀ := fun he => h he.symm
      simp [alGet, h, ih, hkk]

theorem alGet_alDel_ne {κ ν : Type} [DecidableEq κ] {k k' : κ} (l : List (κ × ν))
    (h : k' ≠ k) : alGet k (alDel k' l) = alGet k l := by
  induction l with
  | nil => rfl
  | cons hd tl ih =>
    obtain ⟨k₀, v₀⟩ := hd
    by_cases h₀ : k₀ = k'
    · subst h₀
      simp [alDel, alGet, h]
    · have hkk' : ¬ k = k' := fun he => h he.symm
      by_cases h₁ : k₀ = k <;> simp [alDel, alGet, h₀, h₁, ih, hkk']

theorem alGet_foldl_alDel {κ ν : Type} [DecidableEq κ] (k : κ) (ids : List κ)
    (l : List (κ × ν)) (h : k ∉ ids) :
    alGet k (ids.foldl (fun m i => alDel i m) l) = alGet k l := by
  induction ids generalizing l with
  | nil => rfl
  | cons i rest ih =>
    simp only [List.foldl_cons]
    rw [ih _ (fun hm => h (List.mem_cons_of_mem i hm)),
      alGet_alDel_ne _ (fun he => h (by rw [he]; exact List.mem_cons_self k rest))]

/-! ### Behaviour of the disappearance loop -/
theorem hdLoop_untouched (maxD : Nat) (old cur : List (Nat × Track))
    (dm : List (Nat × Nat)) (id : Nat) (h : id ∉ old.map Prod.fst) :
    alGet id (hdLoop maxD old cur dm).current = alGet id cur ∧
    alGet id (hdLoop maxD old cur dm).dis = alGet id dm ∧
    id ∉ (hdLoop maxD old cur dm).removed := by
  induction old generalizing cur dm with
  | nil => exact ⟨rfl, rfl, by simp [hdLoop]⟩
  | cons kv rest ih =>
    have hne : kv.1 ≠ id := fun he => h (by simp [he])
    have hrest : id ∉ rest.map Prod.fst := fun hm => h (by simp [hm])
    cases hget : alGet kv.1 cur with
    | some v =>
      simpa [hdLoop, hget] using ih cur dm hrest
    | none =>
      by_cases hgt : (alGet kv.1 dm).getD 0 + 1 > maxD
      · have := ih cur (alSet kv.1 ((alGet kv.1 dm).getD 0 + 1) dm) hrest
        simp only [hdLoop, hget, if_pos hgt] at *
        refine ⟨this.1, ?_, ?_⟩
        · rw [this.2.1, alGet_alSet_ne _ _ hne]
        · simp only [List.mem_cons, not_or]
          exact ⟨fun he => hne he.symm, this.2.2⟩
      · have := ih (alSet kv.1 kv.2 cur) (alSet kv.1 ((alGet kv.1 dm).getD 0 + 1) dm) hrest
        simp only [hdLoop, hget, if_neg hgt] at *
        refine ⟨?_, ?_, this.2.2⟩
        · rw [this.1, alGet_alSet_ne _ _ hne]
        · rw [this.2.1, alGet_alSet_ne _ _ hne]

theorem hdLoop_present (maxD : Nat) (old : List (Nat × Track))
    (cur : List (Nat × Track)) (dm : List (Nat × Nat)) (id : Nat) (v : Track)
    (h : alGet id cur = some v) :
    alGet id (hdLoop maxD old cur dm).current = some v ∧
    alGet id (hdLoop maxD old cur dm).dis = alGet id dm ∧
    id ∉ (hdLoop maxD old cur dm).removed := by
  induction old generalizing cur dm with
  | nil => exact ⟨h, rfl, by simp [hdLoop]⟩
  | cons kv rest ih =>
    cases hget : alGet kv.1 cur with
    | some w => simpa [hdLoop, hget] using ih cur dm h
    | none =>
      have hne : kv.1 ≠ id := fun he => by rw [he, h] at hget; exact Option.noConfusion hget
      by_cases hgt : (alGet kv.1 dm).getD 0 + 1 > maxD
      · have := ih cur (alSet kv.1 ((alGet kv.1 dm).getD 0 + 1) dm) h
        simp only [hdLoop, hget, if_pos hgt] at *
        refine ⟨this.1, ?_, ?_⟩
        · rw [this.2.1, alGet_alSet_ne _ _ hne]
        · simp only [List.mem_cons, not_or]
          exact ⟨fun he => hne he.symm, this.2.2⟩
      · have hcur' : alGet id (alSet kv.1 kv.2 cur) = some v := by
          rw [alGet_alSet_ne _ _ hne]; exact h
        have := ih (alSet kv.1 kv.2 cur) (alSet kv.1 ((alGet kv.1 dm).getD 0 + 1) dm) hcur'
        simp only [hdLoop, hget, if_neg hgt] at *
        refine ⟨this.1, ?_, this.2.2⟩
        rw [this.2.1, alGet_alSet_ne _ _ hne]

theorem hdLoop_absent (maxD : Nat) (old : List (Nat × Track))
    (cur : List (Nat × Track)) (dm : List (Nat × Nat)) (id : Nat) (tr : Track)
    (hnodup : (old.map Prod.fst).Nodup) (hmem : (id, tr) ∈ old)
    (hcur : alGet id cur = none) :
    ((alGet id dm).getD 0 + 1 > maxD →
      alGet id (hdLoop maxD old cur dm).current = none ∧
      id ∈ (hdLoop maxD old cur dm).removed) ∧
    ((alGet id dm).getD 0 + 1 ≤ maxD →
      alGet id (hdLoop maxD old cur dm).current = some tr ∧
      alGet id (hdLoop maxD old cur dm).dis = some ((alGet id dm).getD 0 + 1) ∧
      id ∉ (hdLoop maxD old cur dm).removed) := by
  induction old generalizing cur dm with
  | nil => cases hmem
  | cons kv rest ih =>
    by_cases hid : kv.1 = id
    · have hnr : id ∉ rest.map Prod.fst := by
        rw [List.map_cons, List.nodup_cons] at hnodup
        exact hid ▸ hnodup.1
      have hkv : kv = (id, tr) := by
        rcases List.mem_cons.mp hmem with h | h
        · exact h.symm
        · exact absurd (List.mem_map_of_mem Prod.fst h) hnr
      have hget : alGet kv.1 cur = none := hid ▸ hcur
      by_cases hgt : (alGet id dm).getD 0 + 1 > maxD
      · have hgt' : (alGet kv.1 dm).getD 0 + 1 > maxD := hid ▸ hgt
        have hu := hdLoop_untouched maxD rest cur
          (alSet kv.1 ((alGet kv.1 dm).getD 0 + 1) dm) id hnr
        refine ⟨fun _ => ?_, fun hle => absurd hgt (by omega)⟩
        simp only [hdLoop, hget, if_pos hgt']
        exact ⟨hu.1.trans hcur, by rw [hid]; exact List.mem_cons_self id _⟩
      · have hgt' : ¬ (alGet kv.1 dm).getD 0 + 1 > maxD := hid ▸ hgt
        have hu := hdLoop_untouched maxD rest (alSet kv.1 kv.2 cur)
          (alSet kv.1 ((alGet kv.1 dm).getD 0 + 1) dm) id hnr
        refine ⟨fun hgt0 => absurd hgt0 hgt, fun _ => ?_⟩
        simp only [hdLoop, hget, if_neg hgt']
        refine ⟨?_, ?_, hu.2.2⟩
        · rw [hu.1, hid, alGet_alSet_self, hkv]
        · rw [hu.2.1, hid, alGet_alSet_self]
    · have hmr : (id, tr) ∈ rest := by
        rcases List.mem_cons.mp hmem with h | h
        · exact absurd (congrArg Prod.fst h.symm) hid
        · exact h
      have hnr : (rest.map Prod.fst).Nodup := by
        rw [List.map_cons, List.nodup_cons] at hnodup
        exact hnodup.2
      cases hget : alGet kv.1 cur with
      | some w =>
        have := ih cur dm hnr hmr hcur
        simpa [hdLoop, hget] using this
      | none =>
        have hdm' : alGet id (alSet kv.1 ((alGet kv.1 dm).getD 0 + 1) dm) = alGet id dm :=
          alGet_alSet_ne _ _ hid
        by_cases hgt : (alGet kv.1 dm).getD 0 + 1 > maxD
        · have := ih cur (alSet kv.1 ((alGet kv.1 dm).getD 0 + 1) dm) hnr hmr hcur
          rw [hdm'] at this
          simp only [hdLoop, hget, if_pos hgt]
          refine ⟨fun hg => ?_, fun hle => ?_⟩
          · refine ⟨(this.1 hg).1, List.mem_cons_of_mem _ (this.1 hg).2⟩
          · refine ⟨(this.2 hle).1, (this.2 hle).2.1, ?_⟩
            simp only [List.mem_cons, not_or]
            exact ⟨fun he => hid he.symm, (this.2 hle).2.2⟩
        · have hcur' : alGet id (alSet kv.1 kv.2 cur) = none := by
            rw [alGet_alSet_ne _ _ hid]; exact hcur
          have := ih (alSet kv.1 kv.2 cur)
            (alSet kv.1 ((alGet kv.1 dm).getD 0 + 1) dm) hnr hmr hcur'
          rw [hdm'] at this
          simpa [hdLoop, hget, if_neg hgt] using this

theorem hdLoop_current_origin (maxD : Nat) (old cur : List (Nat × Track))
    (dm : List (Nat × Nat)) (id : Nat) :
    alGet id (hdLoop maxD old cur dm).current = none ∨
    alGet id cur ≠ none ∨ id ∈ old.map Prod.fst := by
  induction old generalizing cur dm with
  | nil =>
    by_cases h : alGet id cur = none
    · exact Or.inl h
    · exact Or.inr (Or.inl h)
  | cons kv rest ih =>
    cases hget : alGet kv.1 cur with
    | some w =>
      rcases ih cur dm with h | h | h
      · exact Or.inl (by simpa [hdLoop, hget] using h)
      · exact Or.inr (Or.inl h)
      · exact Or.inr (Or.inr (by simp [h]))
    | none =>
      by_cases hgt : (alGet kv.1 dm).getD 0 + 1 > maxD
      · rcases ih cur (alSet kv.1 ((alGet kv.1 dm).getD 0 + 1) dm) with h | h | h
        · exact Or.inl (by simpa [hdLoop, hget, if_pos hgt] using h)
        · exact Or.inr (Or.inl h)
        · exact Or.inr (Or.inr (by simp [h]))
      · rcases ih (alSet kv.1 kv.2 cur) (alSet kv.1 ((alGet kv.1 dm).getD 0 + 1) dm)
          with h | h | h
        · exact Or.inl (by simpa [hdLoop, hget, if_neg hgt] using h)
        · by_cases he : kv.1 = id
          · exact Or.inr (Or.inr (by simp [he]))
          · exact Or.inr (Or.inl (by rwa [alGet_alSet_ne _ _ he] at h))
        · exact Or.inr (Or.inr (by simp [h]))

/-! ### Behaviour of the matched-update and spawn loops -/
theorem uml_nextId (histLen : Nat) (tracksOld : List (Nat × Track))
    (dets : List Det) (now : Nat) (ps : List (Nat × Nat)) (acc : UTAcc) :
    (updateMatchedLoop histLen tracksOld dets now ps acc).nextId = acc.nextId := by
  induction ps generalizing acc with
  | nil => rfl
  | cons p rest ih =>
    simp only [updateMatchedLoop]
    cases hget : alGet p.1 tracksOld with
    | some tr => simp only [hget]; exact ih _
    | none => simp only [hget]; exact ih _

theorem uml_updated_suffix (histLen : Nat) (tracksOld : List (Nat × Track))
    (dets : List Det) (now : Nat) (ps : List (Nat × Nat)) (acc : UTAcc) :
    ∃ l, (updateMatchedLoop histLen tracksOld dets now ps acc).updated =
      acc.updated ++ l := by
  induction ps generalizing acc with
  | nil => exact ⟨[], (List.append_nil _).symm⟩
  | cons p rest ih =>
    simp only [updateMatchedLoop]
    cases hget : alGet p.1 tracksOld with
    | some tr =>
      simp only [hget]
      obtain ⟨l, hl⟩ := ih ⟨acc.nextId,
        alSet p.1 (updateTrack histLen tr (dets.getD p.2 defaultDet) now) acc.current,
        alSet p.1 0 acc.dis, acc.updated ++ [p.1]⟩
      exact ⟨p.1 :: l, by rw [hl]; simp⟩
    | none => simp only [hget]; exact ih acc

theorem uml_untouched (histLen : Nat) (tracksOld : List (Nat × Track))
    (dets : List Det) (now : Nat) (ps : List (Nat × Nat)) (acc : UTAcc) (id : Nat)
    (h : id ∉ (updateMatchedLoop histLen tracksOld dets now ps acc).updated) :
    alGet id (updateMatchedLoop histLen tracksOld dets now ps acc).current =
      alGet id acc.current ∧
    alGet id (updateMatchedLoop histLen tracksOld dets now ps acc).dis =
      alGet id acc.dis := by
  induction ps generalizing acc with
  | nil => exact ⟨rfl, rfl⟩
  | cons p rest ih =>
    revert h
    simp only [updateMatchedLoop]
    cases hget : alGet p.1 tracksOld with
    | some tr =>
      simp only [hget]
      intro h
      set acc' : UTAcc := ⟨acc.nextId,
        alSet p.1 (updateTrack histLen tr (dets.getD p.2 defaultDet) now) acc.current,
        alSet p.1 0 acc.dis, acc.updated ++ [p.1]⟩ with hacc
      obtain ⟨l, hl⟩ := uml_updated_suffix histLen tracksOld dets now rest acc'
      have hpin : p.1 ∈ (updateMatchedLoop histLen tracksOld dets now rest acc').updated := by
        rw [hl, hacc]; simp
      have hne : p.1 ≠ id := fun he => h (he ▸ hpin)
      have hrec := ih acc' h
      rw [hrec.1, hrec.2, hacc]
      exact ⟨alGet_alSet_ne _ _ hne, alGet_alSet_ne _ _ hne⟩
    | none => simp only [hget]; exact fun h => ih acc h

theorem uml_current_origin (histLen : Nat) (tracksOld : List (Nat × Track))
    (dets : List Det) (now : Nat) (ps : List (Nat × Nat)) (acc : UTAcc) (id : Nat) :
    alGet id (updateMatchedLoop histLen tracksOld dets now ps acc).current = none ∨
    alGet id acc.current ≠ none ∨ alGet id tracksOld ≠ none := by
  induction ps generalizing acc with
  | nil =>
    by_cases h : alGet id acc.current = none
    · exact Or.inl h
    · exact Or.inr (Or.inl h)
  | cons p rest ih =>
    simp only [updateMatchedLoop]
    cases hget : alGet p.1 tracksOld with
    | some tr =>
      simp only [hget]
      rcases ih ⟨acc.nextId,
          alSet p.1 (updateTrack histLen tr (dets.getD p.2 defaultDet) now) acc.current,
          alSet p.1 0 acc.dis, acc.updated ++ [p.1]⟩ with h | h | h
      · exact Or.inl h
      · by_cases he : p.1 = id
        · refine Or.inr (Or.inr ?_)
          rw [← he, hget]
          exact fun hx => Option.noConfusion hx
        · exact Or.inr (Or.inl (by rwa [alGet_alSet_ne _ _ he] at h))
      · exact Or.inr (Or.inr h)
    | none => simp only [hget]; exact ih acc

theorem spawn_nextId_le (dets : List Det) (now : Nat) (js : List Nat)
    (acc : UTAcc) : acc.nextId ≤ (spawnLoop dets now js acc).nextId := by
  induction js generalizing acc with
  | nil => exact Nat.le_refl _
  | cons j rest ih =>
    simp only [spawnLoop]
    exact Nat.le_trans (Nat.le_succ _) (ih ⟨acc.nextId + 1,
      alSet acc.nextId (initializeTrack acc.nextId (dets.getD j defaultDet) now) acc.current,
      alSet acc.nextId 0 acc.dis, acc.updated ++ [acc.nextId]⟩)

theorem spawn_updated_suffix (dets : List Det) (now : Nat) (js : List Nat)
    (acc : UTAcc) :
    ∃ l, (spawnLoop dets now js acc).updated = acc.updated ++ l := by
  induction js generalizing acc with
  | nil => exact ⟨[], (List.append_nil _).symm⟩
  | cons j rest ih =>
    simp only [spawnLoop]
    obtain ⟨l, hl⟩ := ih ⟨acc.nextId + 1,
      alSet acc.nextId (initializeTrack acc.nextId (dets.getD j defaultDet) now) acc.current,
      alSet acc.nextId 0 acc.dis, acc.updated ++ [acc.nextId]⟩
    exact ⟨acc.nextId :: l, by rw [hl]; simp⟩

theorem spawn_untouched (dets : List Det) (now : Nat) (js : List Nat)
    (acc : UTAcc) (id : Nat)
    (h : id ∉ (spawnLoop dets now js acc).updated) :
    alGet id (spawnLoop dets now js acc).current = alGet id acc.current ∧
    alGet id (spawnLoop dets now js acc).dis = alGet id acc.dis := by
  induction js generalizing acc with
  | nil => exact ⟨rfl, rfl⟩
  | cons j rest ih =>
    revert h
    simp only [spawnLoop]
    intro h
    set acc' : UTAcc := ⟨acc.nextId + 1,
      alSet acc.nextId (initializeTrack acc.nextId (dets.getD j defaultDet) now) acc.current,
      alSet acc.nextId 0 acc.dis, acc.updated ++ [acc.nextId]⟩ with hacc
    obtain ⟨l, hl⟩ := spawn_updated_suffix dets now rest acc'
    have hpin : acc.nextId ∈ (spawnLoop dets now rest acc').updated := by
      rw [hl, hacc]; simp
    have hne : acc.nextId ≠ id := fun he => h (he ▸ hpin)
    have hrec := ih acc' h
    rw [hrec.1, hrec.2, hacc]
    exact ⟨alGet_alSet_ne _ _ hne, alGet_alSet_ne _ _ hne⟩

theorem spawn_current_origin (dets : List Det) (now : Nat) (js : List Nat)
    (acc : UTAcc) (id : Nat) :
    alGet id (spawnLoop dets now js acc).current = none ∨
    alGet id acc.current ≠ none ∨
    (acc.nextId ≤ id ∧ id < (spawnLoop dets now js acc).nextId) := by
  induction js generalizing acc with
  | nil =>
    by_cases h : alGet id acc.current = none
    · exact Or.inl h
    · exact Or.inr (Or.inl h)
  | cons j rest ih =>
    simp only [spawnLoop]
    set acc' : UTAcc := ⟨acc.nextId + 1,
      alSet acc.nextId (initializeTrack acc.nextId (dets.getD j defaultDet) now) acc.current,
      alSet acc.nextId 0 acc.dis, acc.updated ++ [acc.nextId]⟩ with hacc
    rcases ih acc' with h | h | h
    · exact Or.inl h
    · by_cases he : acc.nextId = id
      · refine Or.inr (Or.inr ⟨Nat.le_of_eq he, ?_⟩)
        have h1 := spawn_nextId_le dets now rest acc'
        have h2 : acc'.nextId = acc.nextId + 1 := by rw [hacc]
        omega
      · refine Or.inr (Or.inl ?_)
        rw [hacc] at h
        rwa [alGet_alSet_ne _ _ he] at h
    · refine Or.inr (Or.inr ⟨?_, h.2⟩)
      rw [hacc] at h
      exact Nat.le_trans (Nat.le_succ _) h.1

theorem spawnAll_nextId (now : Nat) (dets : List Det) (nid : Nat) :
    (spawnAllLoop now dets nid).nextId = nid + dets.length := by
  induction dets generalizing nid with
  | nil => rfl
  | cons det rest ih =>
    simp only [spawnAllLoop, List.length_cons]
    rw [ih]
    omega

theorem spawnAll_origin (now : Nat) (dets : List Det) (nid id : Nat) :
    alGet id (spawnAllLoop now dets nid).current = none ∨
    (nid ≤ id ∧ id < nid + dets.length) := by
  induction dets generalizing nid with
  | nil => exact Or.inl rfl
  | cons det rest ih =>
    by_cases he : nid = id
    · exact Or.inr ⟨Nat.le_of_eq he, by simp [← he]⟩
    · rcases ih (nid + 1) with h | h
      · refine Or.inl ?_
        simp only [spawnAllLoop, alGet, he, if_false]
        exact h
      · refine Or.inr ⟨by omega, by simp only [List.length_cons]; omega⟩

/-! ### Branch equations for `updateTracks` -/
theorem updateTracks_empty_dets (s : PTState) (dets : List Det) (now : Nat)
    (h : dets.isEmpty = true) :
    updateTracks s dets now = handleDisappearances s [] [] := by
  unfold updateTracks
  rw [if_pos h]

theorem updateTracks_empty_tracks (s : PTState) (dets : List Det) (now : Nat)
    (hd : dets.isEmpty = false) (ht : s.tracks.isEmpty = true) :
    updateTracks s dets now =
      ({ s with nextTrackId := (spawnAllLoop now dets s.nextTrackId).nextId,
                tracks := (spawnAllLoop now dets s.nextTrackId).current },
        ⟨(spawnAllLoop now dets s.nextTrackId).current,
          (spawnAllLoop now dets s.nextTrackId).updated, []⟩) := by
  unfold updateTracks
  rw [if_neg (by simp [hd]), if_pos ht]

theorem updateTracks_general (s : PTState) (dets : List Det) (now : Nat)
    (hd : dets.isEmpty = false) (ht : s.tracks.isEmpty = false) :
    updateTracks s dets now =
      handleDisappearances
        { s with
            nextTrackId := (spawnLoop dets now
              (matchDetectionsToTracks s.tracks (calculateIoUMatrix s.tracks dets) dets).2
              (updateMatchedLoop s.historyLength s.tracks dets now
                (matchDetectionsToTracks s.tracks (calculateIoUMatrix s.tracks dets) dets).1
                ⟨s.nextTrackId, [], s.disappeared, []⟩)).nextId,
            disappeared := (spawnLoop dets now
              (matchDetectionsToTracks s.tracks (calculateIoUMatrix s.tracks dets) dets).2
              (updateMatchedLoop s.historyLength s.tracks dets now
                (matchDetectionsToTracks s.tracks (calculateIoUMatrix s.tracks dets) dets).1
                ⟨s.nextTrackId, [], s.disappeared, []⟩)).dis }
        (spawnLoop dets now
          (matchDetectionsToTracks s.tracks (calculateIoUMatrix s.tracks dets) dets).2
          (updateMatchedLoop s.historyLength s.tracks dets now
            (matchDetectionsToTracks s.tracks (calculateIoUMatrix s.tracks dets) dets).1
            ⟨s.nextTrackId, [], s.disappeared, []⟩)).current
        (spawnLoop dets now
          (matchDetectionsToTracks s.tracks (calculateIoUMatrix s.tracks dets) dets).2
          (updateMatchedLoop s.historyLength s.tracks dets now
            (matchDetectionsToTracks s.tracks (calculateIoUMatrix s.tracks dets) dets).1
            ⟨s.nextTrackId, [], s.disappeared, []⟩)).updated := by
  unfold updateTracks
  rw [if_neg (by simp [hd]), if_neg (by simp [ht])]

/-! ### Behaviour of the greedy matcher -/
theorem bestIdx_foldl_spec (used : Finset Nat) (l : List (Nat × ℚ)) :
    ∀ acc : ℚ × Option Nat,
      l.foldl (fun acc ji =>
        if ji.1 ∉ used ∧ ji.2 > acc.1 then (ji.2, some ji.1) else acc) acc = acc ∨
      ∃ p ∈ l, p.1 ∉ used ∧
        l.foldl (fun acc ji =>
          if ji.1 ∉ used ∧ ji.2 > acc.1 then (ji.2, some ji.1) else acc) acc =
          (p.2, some p.1) := by
  induction l with
  | nil => intro acc; exact Or.inl rfl
  | cons p rest ih =>
    intro acc
    simp only [List.foldl_cons]
    by_cases hc : p.1 ∉ used ∧ p.2 > acc.1
    · rw [if_pos hc]
      rcases ih (p.2, some p.1) with h | ⟨q, hq, hqu, hqe⟩
      · exact Or.inr ⟨p, List.mem_cons_self _ _, hc.1, h⟩
      · exact Or.inr ⟨q, List.mem_cons_of_mem _ hq, hqu, hqe⟩
    · rw [if_neg hc]
      rcases ih acc with h | ⟨q, hq, hqu, hqe⟩
      · exact Or.inl h
      · exact Or.inr ⟨q, List.mem_cons_of_mem _ hq, hqu, hqe⟩

theorem bestIdx_some (ious : List ℚ) (used : Finset Nat) (q : ℚ) (j : Nat)
    (h : bestIdx ious used = (q, some j)) :
    j ∉ used ∧ j < ious.length ∧ ious.getD j 0 = q := by
  rcases bestIdx_foldl_spec used ious.enum (-1, none) with h0 | ⟨p, hp, hpu, hpe⟩
  · rw [bestIdx, h0] at h
    exact absurd (congrArg Prod.snd h).symm (by simp)
  · rw [bestIdx, hpe] at h
    have h1 : p.2 = q := congrArg Prod.fst h
    have h2 : p.1 = j := by
      have := congrArg Prod.snd h
      simpa using this
    have hmem := List.mem_enum_iff_getElem?.mp hp
    rw [h2, h1] at hmem
    rw [h2] at hpu
    have hlt : j < ious.length := (List.getElem?_eq_some.mp hmem).1
    refine ⟨hpu, hlt, ?_⟩
    simp [List.getD_eq_getElem?_getD, hmem]

theorem greedyLoop_cons_accept (tid : Nat) (ious : List ℚ)
    (rest : List (Nat × List ℚ)) (used : Finset Nat) (q : ℚ) (j : Nat)
    (hb : bestIdx ious used = (q, some j)) (hge : q ≥ 3 / 10) :
    greedyLoop ((tid, ious) :: rest) used =
      ((tid, j) :: (greedyLoop rest (insert j used)).1,
        (greedyLoop rest (insert j used)).2) := by
  conv_lhs => unfold greedyLoop
  rw [hb]
  simp [hge]

theorem greedyLoop_cons_low (tid : Nat) (ious : List ℚ)
    (rest : List (Nat × List ℚ)) (used : Finset Nat)
    (hlow : ¬ (bestIdx ious used).1 ≥ 3 / 10) :
    greedyLoop ((tid, ious) :: rest) used = greedyLoop rest used := by
  conv_lhs => unfold greedyLoop
  simp [hlow]

theorem greedyLoop_cons_none (tid : Nat) (ious : List ℚ)
    (rest : List (Nat × List ℚ)) (used : Finset Nat)
    (hb : (bestIdx ious used).2 = none) :
    greedyLoop ((tid, ious) :: rest) used = greedyLoop rest used := by
  conv_lhs => unfold greedyLoop
  by_cases hge : (bestIdx ious used).1 ≥ 3 / 10
  · simp [hb, hge]
  · simp [hb, hge]

theorem greedyLoop_spec (rows : List (Nat × List ℚ)) (used : Finset Nat) :
    used ⊆ (greedyLoop rows used).2 ∧
    (∀ p ∈ (greedyLoop rows used).1,
      p.2 ∉ used ∧ p.2 ∈ (greedyLoop rows used).2 ∧
      ∃ ious, (p.1, ious) ∈ rows ∧ 3 / 10 ≤ ious.getD p.2 0 ∧ p.2 < ious.length) ∧
    ((greedyLoop rows used).1.map Prod.snd).Nodup ∧
    ((rows.map Prod.fst).Nodup → ((greedyLoop rows used).1.map Prod.fst).Nodup) ∧
    (∀ j ∈ (greedyLoop rows used).2,
      j ∈ used ∨ j ∈ (greedyLoop rows used).1.map Prod.snd) := by
  induction rows generalizing used with
  | nil =>
    exact ⟨fun x hx => hx, fun p hp => absurd hp (List.not_mem_nil p),
      List.nodup_nil, fun _ => List.nodup_nil, fun j hj => Or.inl hj⟩
  | cons row rest ih =>
    obtain ⟨tid, ious⟩ := row
    rcases hb : bestIdx ious used with ⟨q, jo⟩
    cases jo with
    | none =>
      rw [greedyLoop_cons_none tid ious rest used (by rw [hb])]
      obtain ⟨i1, i2, i3, i4, i5⟩ := ih used
      refine ⟨i1, fun p hp => ?_, i3, fun hnd => i4 ?_, i5⟩
      · obtain ⟨hp1, hp2, ious', hm, hge', hlt'⟩ := i2 p hp
        exact ⟨hp1, hp2, ious', List.mem_cons_of_mem _ hm, hge', hlt'⟩
      · rw [List.map_cons, List.nodup_cons] at hnd
        exact hnd.2
    | some j =>
      by_cases hge : q ≥ 3 / 10
      · rw [greedyLoop_cons_accept tid ious rest used q j hb hge]
        obtain ⟨hju, hjlt, hjd⟩ := bestIdx_some ious used q j hb
        obtain ⟨i1, i2, i3, i4, i5⟩ := ih (insert j used)
        refine ⟨?_, ?_, ?_, ?_, ?_⟩
        · exact fun x hx => i1 (Finset.mem_insert_of_mem hx)
        · intro p hp
          rcases List.mem_cons.mp hp with hp | hp
          · subst hp
            exact ⟨hju, i1 (Finset.mem_insert_self j used),
              ious, List.mem_cons_self _ _, by rw [hjd]; exact hge, hjlt⟩
          · obtain ⟨hp1, hp2, ious', hm, hge', hlt'⟩ := i2 p hp
            exact ⟨fun hmm => hp1 (Finset.mem_insert_of_mem hmm), hp2,
              ious', List.mem_cons_of_mem _ hm, hge', hlt'⟩
        · rw [List.map_cons, List.nodup_cons]
          refine ⟨fun hmem => ?_, i3⟩
          obtain ⟨p, hp, hpj⟩ := List.mem_map.mp hmem
          exact (i2 p hp).1 (hpj ▸ Finset.mem_insert_self j used)
        · intro hnd
          rw [List.map_cons, List.nodup_cons] at hnd ⊢
          refine ⟨fun hmem => ?_, i4 hnd.2⟩
          obtain ⟨p, hp, hpt⟩ := List.mem_map.mp hmem
          obtain ⟨_, _, ious', hm, _, _⟩ := i2 p hp
          exact hnd.1 (hpt ▸ List.mem_map_of_mem Prod.fst hm)
        · intro j' hj'
          rcases i5 j' hj' with hj2 | hj2
          · rcases Finset.mem_insert.mp hj2 with hj3 | hj3
            · exact Or.inr (by rw [List.map_cons, hj3]; exact List.mem_cons_self _ _)
            · exact Or.inl hj3
          · exact Or.inr (by rw [List.map_cons]; exact List.mem_cons_of_mem _ hj2)
      · rw [greedyLoop_cons_low tid ious rest used (by rw [hb]; exact hge)]
        obtain ⟨i1, i2, i3, i4, i5⟩ := ih used
        refine ⟨i1, fun p hp => ?_, i3, fun hnd => i4 ?_, i5⟩
        · obtain ⟨hp1, hp2, ious', hm, hge', hlt'⟩ := i2 p hp
          exact ⟨hp1, hp2, ious', List.mem_cons_of_mem _ hm, hge', hlt'⟩
        · rw [List.map_cons, List.nodup_cons] at hnd
          exact hnd.2

theorem spawn_preserve (dets : List Det) (now : Nat) (js : List Nat)
    (acc : UTAcc) (key : Nat) (hk : key < acc.nextId) :
    alGet key (spawnLoop dets now js acc).current = alGet key acc.current := by
  induction js generalizing acc with
  | nil => rfl
  | cons j rest ih =>
    simp only [spawnLoop]
    have hne : acc.nextId ≠ key := by omega
    have := ih ⟨acc.nextId + 1,
      alSet acc.nextId (initializeTrack acc.nextId (dets.getD j defaultDet) now) acc.current,
      alSet acc.nextId 0 acc.dis, acc.updated ++ [acc.nextId]⟩ (Nat.lt_succ_of_lt hk)
    rw [this, alGet_alSet_ne _ _ hne]

theorem spawn_get (dets : List Det) (now : Nat) (js : List Nat) (acc : UTAcc) :
    ∀ k, k < js.length →
      alGet (acc.nextId + k) (spawnLoop dets now js acc).current =
        some (initializeTrack (acc.nextId + k)
          (dets.getD (js.getD k 0) defaultDet) now) := by
  induction js generalizing acc with
  | nil => intro k hk; simp at hk
  | cons j rest ih =>
    intro k hk
    simp only [spawnLoop]
    cases k with
    | zero =>
      rw [Nat.add_zero]
      have hpres := spawn_preserve dets now rest ⟨acc.nextId + 1,
        alSet acc.nextId (initializeTrack acc.nextId (dets.getD j defaultDet) now) acc.current,
        alSet acc.nextId 0 acc.dis, acc.updated ++ [acc.nextId]⟩
        acc.nextId (Nat.lt_succ_self _)
      rw [hpres]
      exact alGet_alSet_self _ _ _
    | succ k' =>
      have hstep := ih ⟨acc.nextId + 1,
        alSet acc.nextId (initializeTrack acc.nextId (dets.getD j defaultDet) now) acc.current,
        alSet acc.nextId 0 acc.dis, acc.updated ++ [acc.nextId]⟩
        k' (by simpa using Nat.lt_of_succ_lt_succ hk)
      have harith : acc.nextId + (k' + 1) = acc.nextId + 1 + k' := by omega
      rw [harith]
      exact hstep

theorem spawnAll_get (now : Nat) (dets : List Det) (nid : Nat) :
    ∀ k, k < dets.length →
      alGet (nid + k) (spawnAllLoop now dets nid).current =
        some (initializeTrack (nid + k) (dets.getD k defaultDet) now) := by
  induction dets generalizing nid with
  | nil => intro k hk; simp at hk
  | cons det rest ih =>
    intro k hk
    simp only [spawnAllLoop]
    cases k with
    | zero =>
      rw [Nat.add_zero]
      simp [alGet]
    | succ k' =>
      have hne : ¬ nid = nid + (k' + 1) := by omega
      simp only [alGet, if_neg hne]
      have hstep := ih (nid + 1) k' (by simpa using Nat.lt_of_succ_lt_succ hk)
      have harith : nid + (k' + 1) = nid + 1 + k' := by omega
      rw [harith]
      exact hstep

/-! ## Claim theorems -/
/-- C7: the crossing-direction classification returns `"in"` exactly when the
previous position's signed side is `≤ 0` and the current one's is `> 0`, and
the vertical-line branch agrees with the horizontal-line branch, so the
classification is independent of the line's orientation class. -/
theorem c7_direction_sign_convention (p1 p2 ls le : ℚ × ℚ) :
    determineLineCrossingDirection p1 p2 ls le =
      (if getSide p1.1 p1.2 ls.1 ls.2 le.1 le.2 ≤ 0 ∧
          getSide p2.1 p2.2 ls.1 ls.2 le.1 le.2 > 0 then "in" else "out") ∧
    ∀ prevSide currSide : ℚ,
      dirVerticalBranch prevSide currSide = dirHorizontalBranch prevSide currSide := by
  refine ⟨?_, fun a b => rfl⟩
  unfold determineLineCrossingDirection dirVerticalBranch dirHorizontalBranch
  rw [ite_self]

/-- C3, counterexample: `resetCounts` zeroes the counters and clears the
dedup map, but the area's inside-membership set is NOT emptied — track 4 is
still recorded inside after the reset. -/
theorem c3_reset_counterexample :
    (resetCounts c3State).lineCrossings = [(1, ⟨0, 0⟩)] ∧
    (resetCounts c3State).crossedTracks = [] ∧
    (resetCounts c3State).lines.map Boundary.peopleInside = [{4}] ∧
    ({4} : Finset Nat) ≠ (∅ : Finset Nat) := by
  refine ⟨rfl, rfl, rfl, by decide⟩

/-- C3, amended: one call of `resetCounts` sets the counters of every
existing boundary to `{in: 0, out: 0}` and clears the entire deduplication
map, but leaves every boundary — in particular every Area's
inside-membership set — unchanged. -/
theorem c3_reset_amended (s : LMState) :
    (resetCounts s).lineCrossings = s.lineCrossings.map (fun kv => (kv.1, ⟨0, 0⟩)) ∧
    (resetCounts s).crossedTracks = [] ∧
    (resetCounts s).lines = s.lines ∧
    (resetCounts s).nextLineId = s.nextLineId :=
  ⟨rfl, rfl, rfl, rfl⟩

/-- C8, counterexample: `addLine` does not reject the zero-length line — the
degenerate boundary is stored in the registry. -/
theorem c8_degenerate_counterexample :
    (addLine initialLMState c8Req).1.lines.map (fun b => (b.bstart, b.bend)) =
      [(some ⟨5, 5⟩, some ⟨5, 5⟩)] ∧
    (addLine initialLMState c8Req).1.lines.length = 1 := by
  exact ⟨rfl, rfl⟩

/-- C8, amended: `addLine` performs no geometry validation at all — every
creation request, including one with degenerate geometry, is accepted:
exactly one boundary is appended to the registry and its counters are
initialised.  (Only the interactive drawing handlers filter drags shorter
than 20px before ever calling `addLine`.) -/
theorem c8_addLine_never_rejects (s : LMState) (req : LineReq) :
    (addLine s req).1.lines = s.lines ++ [mkBoundary s req] ∧
    (addLine s req).1.nextLineId = s.nextLineId + 1 ∧
    alGet s.nextLineId (addLine s req).1.lineCrossings = some ⟨0, 0⟩ :=
  ⟨rfl, rfl, alGet_alSet_self _ _ _⟩

/-- C2, counterexample: with the vertical line at `x = 100` drawn from
`(100,0)` to `(100,200)`, the motion `(50,50) → (150,50)` produces exactly
one crossing event, but its direction is `"out"` (and the counters read
`{in: 0, out: 1}`), not `"in"` as claimed. -/
theorem c2_scenarioA_counterexample :
    (checkLineCrossings (addLine initialLMState c2ReqDown).1
        1 (50, 50) (150, 50) 1 1 5000).2 =
      [⟨1, 1, "out", (100, 50), 5000⟩] ∧
    alGet 1 (checkLineCrossings (addLine initialLMState c2ReqDown).1
        1 (50, 50) (150, 50) 1 1 5000).1.lineCrossings = some ⟨0, 1⟩ ∧
    "out" ≠ "in" := by
  have hinter : lineIntersection ((50 : ℚ), (50 : ℚ))
      ((150 : ℚ), (50 : ℚ)) (100, 0) (100, 200) = some (100, 50) := by
    unfold lineIntersection; norm_num
  have hdir : determineLineCrossingDirection ((50 : ℚ), (50 : ℚ))
      ((150 : ℚ), (50 : ℚ)) (100, 0) (100, 200) = "out" := by
    unfold determineLineCrossingDirection dirVerticalBranch dirHorizontalBranch getSide
    norm_num
  refine ⟨?_, ?_, by decide⟩ <;>
    simp [checkLineCrossings, addLine, mkBoundary, initialLMState, c2ReqDown,
      clcAux, hinter, hdir, alGet, alSet, bumpCounter]

/-- C2, amended: the motion `(50,50) → (150,50)` across the vertical line at
`x = 100` produces exactly one crossing event, but its direction depends on
the line's endpoint order; with the line drawn from `(100,200)` to
`(100,0)`, the event's direction is `"in"` and the counters read
`{in: 1, out: 0}` as the scenario describes. -/
theorem c2_scenarioA_amended :
    (checkLineCrossings (addLine initialLMState c2ReqUp).1
        1 (50, 50) (150, 50) 1 1 5000).2 =
      [⟨1, 1, "in", (100, 50), 5000⟩] ∧
    alGet 1 (checkLineCrossings (addLine initialLMState c2ReqUp).1
        1 (50, 50) (150, 50) 1 1 5000).1.lineCrossings = some ⟨1, 0⟩ := by
  have hinter : lineIntersection ((50 : ℚ), (50 : ℚ))
      ((150 : ℚ), (50 : ℚ)) (100, 200) (100, 0) = some (100, 50) := by
    unfold lineIntersection; norm_num
  have hdir : determineLineCrossingDirection ((50 : ℚ), (50 : ℚ))
      ((150 : ℚ), (50 : ℚ)) (100, 200) (100, 0) = "in" := by
    unfold determineLineCrossingDirection dirVerticalBranch dirHorizontalBranch getSide
    norm_num
  refine ⟨?_, ?_⟩ <;>
    simp [checkLineCrossings, addLine, mkBoundary, initialLMState, c2ReqUp,
      clcAux, hinter, hdir, alGet, alSet, bumpCounter]

/-- C10: removing boundary 1 is supposed to purge only dedup records keyed by
boundary 1, but the substring test `key.includes("-1")` also deletes the
record of the distinct pair (track 5, boundary 12), whose key `"5-12"`
contains `"-1"`. -/
theorem c10_removeLine_purges_other_boundary :
    alGet (crossKey 5 12) c10State.crossedTracks = some ⟨1000, "in"⟩ ∧
    (removeLine c10State 1).1.crossedTracks = [] ∧
    alGet (crossKey 5 12) (removeLine c10State 1).1.crossedTracks = none ∧
    (1 : Nat) ≠ 12 := by
  refine ⟨by decide, by decide, by decide, by decide⟩

/-- C6: a track's history never exceeds the `historyLength` cap (both at
track creation and on update), and when an append would exceed the cap
exactly the oldest entry is evicted, keeping the remaining entries in
order. -/
theorem c6_history_cap_fifo (historyLength : Nat) (hcap : 1 ≤ historyLength)
    (track : Track) (det : Det) (now trackId : Nat)
    (hlen : track.history.length ≤ historyLength) :
    (updateTrack historyLength track det now).history.length ≤ historyLength ∧
    (initializeTrack trackId det now).history.length ≤ historyLength ∧
    (track.history.length + 1 > historyLength →
      (updateTrack historyLength track det now).history =
        track.history.tail ++ [histEntryOf det now]) ∧
    (track.history.length + 1 ≤ historyLength →
      (updateTrack historyLength track det now).history =
        track.history ++ [histEntryOf det now]) := by
  have hdef : (updateTrack historyLength track det now).history =
      (if (track.history ++ [histEntryOf det now]).length > historyLength
       then (track.history ++ [histEntryOf det now]).tail
       else track.history ++ [histEntryOf det now]) := rfl
  have hinit : (initializeTrack trackId det now).history.length = 1 := rfl
  refine ⟨?_, by rw [hinit]; exact hcap, ?_, ?_⟩
  · rw [hdef]
    by_cases hover : (track.history ++ [histEntryOf det now]).length > historyLength
    · rw [if_pos hover, List.length_tail]
      simp only [List.length_append, List.length_singleton]
      omega
    · rw [if_neg hover]
      simp only [List.length_append, List.length_singleton] at hover ⊢
      omega
  · intro hgt
    rw [hdef, if_pos (by simp only [List.length_append, List.length_singleton]; omega)]
    cases htr : track.history with
    | nil => rw [htr] at hgt; simp at hgt; omega
    | cons a t => simp
  · intro hle
    rw [hdef, if_neg (by simp only [List.length_append, List.length_singleton]; omega)]

/-- Witness for `c6_history_cap_fifo` at the default cap 10 and a concrete
track. -/
theorem c6_history_cap_fifo_witness :
    (updateTrack 10 ⟨3, ⟨0, 0, 2, 2⟩, 7, [⟨7, ⟨0, 0, 2, 2⟩, (1, 1), 1⟩]⟩
        ⟨⟨1, 1, 2, 2⟩, "person", 1⟩ 9).history.length ≤ 10 :=
  (c6_history_cap_fifo 10 (by decide)
    ⟨3, ⟨0, 0, 2, 2⟩, 7, [⟨7, ⟨0, 0, 2, 2⟩, (1, 1), 1⟩]⟩
    ⟨⟨1, 1, 2, 2⟩, "person", 1⟩ 9 4 (by decide)).1

/-- C9: a detector failure is caught and yields an empty detection list; the
frame is then processed exactly like a frame with zero detections: every
track whose advanced counter stays within `maxDisappearedFrames` is kept
completely unchanged (same bbox and history) with its disappeared counter
advanced by exactly one, and a track whose advanced counter exceeds the
threshold is removed from the live set and reported. -/
theorem c9_detector_failure (s : PTState) (now : Nat)
    (hnodup : (s.tracks.map Prod.fst).Nodup) :
    detectPeople s.confidenceThreshold (Except.error ()) = [] ∧
    processFrameTracks s (Except.error ()) now = updateTracks s [] now ∧
    ∀ id tr, (id, tr) ∈ s.tracks →
      ((alGet id s.disappeared).getD 0 + 1 ≤ s.maxDisappearedFrames →
        alGet id (updateTracks s [] now).1.tracks = some tr ∧
        alGet id (updateTracks s [] now).1.disappeared =
          some ((alGet id s.disappeared).getD 0 + 1)) ∧
      ((alGet id s.disappeared).getD 0 + 1 > s.maxDisappearedFrames →
        alGet id (updateTracks s [] now).1.tracks = none ∧
        id ∈ (updateTracks s [] now).2.disappeared) := by
  refine ⟨rfl, rfl, fun id tr hmem => ?_⟩
  have habs := hdLoop_absent s.maxDisappearedFrames s.tracks [] s.disappeared
    id tr hnodup hmem rfl
  have hup : updateTracks s [] now = handleDisappearances s [] [] := rfl
  rw [hup]
  unfold handleDisappearances
  constructor
  · intro hle
    obtain ⟨h1, h2, h3⟩ := habs.2 hle
    exact ⟨h1, by simpa [alGet_foldl_alDel id _ _ h3] using h2⟩
  · intro hgt
    obtain ⟨h1, h2⟩ := habs.1 hgt
    exact ⟨h1, h2⟩

/-- Witness for `c9_detector_failure`: a one-track state with a fresh
disappearance counter keeps its track unchanged on a failed-detector
frame. -/
theorem c9_detector_failure_witness :
    alGet 1 (updateTracks
      ⟨2/5, 15, 10, 2, [(1, ⟨1, ⟨0, 0, 2, 2⟩, 5, [⟨5, ⟨0, 0, 2, 2⟩, (1, 1), 1⟩]⟩)], []⟩
      [] 6).1.tracks =
      some ⟨1, ⟨0, 0, 2, 2⟩, 5, [⟨5, ⟨0, 0, 2, 2⟩, (1, 1), 1⟩]⟩ :=
  (((c9_detector_failure
      ⟨2/5, 15, 10, 2, [(1, ⟨1, ⟨0, 0, 2, 2⟩, 5, [⟨5, ⟨0, 0, 2, 2⟩, (1, 1), 1⟩]⟩)], []⟩
      6 (by simp)).2.2 1
      ⟨1, ⟨0, 0, 2, 2⟩, 5, [⟨5, ⟨0, 0, 2, 2⟩, (1, 1), 1⟩]⟩
      (List.mem_cons_self _ _)).1 (by simp [alGet])).1

/-- Projections of `handleDisappearances`. -/
theorem handleD_proj (s : PTState) (cur : List (Nat × Track)) (upd : List Nat) :
    (handleDisappearances s cur upd).1.tracks =
      (hdLoop s.maxDisappearedFrames s.tracks cur s.disappeared).current ∧
    (handleDisappearances s cur upd).1.disappeared =
      (hdLoop s.maxDisappearedFrames s.tracks cur s.disappeared).removed.foldl
        (fun m i => alDel i m)
        (hdLoop s.maxDisappearedFrames s.tracks cur s.disappeared).dis ∧
    (handleDisappearances s cur upd).1.nextTrackId = s.nextTrackId ∧
    (handleDisappearances s cur upd).2.updated = upd ∧
    (handleDisappearances s cur upd).2.disappeared =
      (hdLoop s.maxDisappearedFrames s.tracks cur s.disappeared).removed :=
  ⟨rfl, rfl, rfl, rfl, rfl⟩

/-- C5: on every frame, an unmatched track whose advanced consecutive-miss
counter stays within `maxDisappearedFrames` remains in the live set with its
last known data and its counter advanced by exactly one; on the frame where
the advanced counter first exceeds the threshold the track is removed from
the live set and reported; and ids are never reassigned: the next-track id
only grows, every live id stays below it, and a dead id below it never
reappears. -/
theorem c5_track_lifecycle (s : PTState) (dets : List Det) (now : Nat)
    (hnodup : (s.tracks.map Prod.fst).Nodup)
    (hlt : ∀ id ∈ s.tracks.map Prod.fst, id < s.nextTrackId) :
    (∀ id tr, (id, tr) ∈ s.tracks → id ∉ (updateTracks s dets now).2.updated →
      ((alGet id s.disappeared).getD 0 + 1 ≤ s.maxDisappearedFrames →
        alGet id (updateTracks s dets now).1.tracks = some tr ∧
        alGet id (updateTracks s dets now).1.disappeared =
          some ((alGet id s.disappeared).getD 0 + 1)) ∧
      ((alGet id s.disappeared).getD 0 + 1 > s.maxDisappearedFrames →
        alGet id (updateTracks s dets now).1.tracks = none ∧
        id ∈ (updateTracks s dets now).2.disappeared)) ∧
    s.nextTrackId ≤ (updateTracks s dets now).1.nextTrackId ∧
    (∀ id, alGet id (updateTracks s dets now).1.tracks ≠ none →
      id < (updateTracks s dets now).1.nextTrackId) ∧
    (∀ id, id < s.nextTrackId → alGet id s.tracks = none →
      alGet id (updateTracks s dets now).1.tracks = none) := by
  cases hde : dets.isEmpty with
  | true =>
    rw [updateTracks_empty_dets s dets now hde]
    obtain ⟨ht1, ht2, ht3, _, ht5⟩ := handleD_proj s [] []
    refine ⟨?_, Nat.le_of_eq ht3.symm, ?_, ?_⟩
    · intro id tr hmem _
      have habs := hdLoop_absent s.maxDisappearedFrames s.tracks [] s.disappeared
        id tr hnodup hmem rfl
      constructor
      · intro hle
        obtain ⟨h1, h2, h3⟩ := habs.2 hle
        refine ⟨ht1 ▸ h1, ?_⟩
        rw [ht2, alGet_foldl_alDel id _ _ h3]
        exact h2
      · intro hgt
        obtain ⟨h1, h2⟩ := habs.1 hgt
        exact ⟨ht1 ▸ h1, ht5 ▸ h2⟩
    · intro id hne
      rw [ht1] at hne
      rw [ht3]
      rcases hdLoop_current_origin s.maxDisappearedFrames s.tracks [] s.disappeared id
        with h | h | h
      · exact absurd h hne
      · exact absurd rfl h
      · exact hlt id h
    · intro id hid hnone
      rw [ht1]
      rcases hdLoop_current_origin s.maxDisappearedFrames s.tracks [] s.disappeared id
        with h | h | h
      · exact h
      · exact absurd rfl h
      · exact absurd h ((alGet_eq_none_iff id s.tracks).mp hnone)
  | false =>
    cases hte : s.tracks.isEmpty with
    | true =>
      rw [updateTracks_empty_tracks s dets now hde hte]
      have hsem : s.tracks = [] := List.isEmpty_iff.mp hte
      refine ⟨?_, ?_, ?_, ?_⟩
      · intro id tr hmem
        rw [hsem] at hmem
        cases hmem
      · show s.nextTrackId ≤ (spawnAllLoop now dets s.nextTrackId).nextId
        rw [spawnAll_nextId]
        omega
      · intro id hne
        have hne' : alGet id (spawnAllLoop now dets s.nextTrackId).current ≠ none := hne
        show id < (spawnAllLoop now dets s.nextTrackId).nextId
        rw [spawnAll_nextId]
        rcases spawnAll_origin now dets s.nextTrackId id with h | h
        · exact absurd h hne'
        · omega
      · intro id hid _
        show alGet id (spawnAllLoop now dets s.nextTrackId).current = none
        rcases spawnAll_origin now dets s.nextTrackId id with h | h
        · exact h
        · omega
    | false =>
      rw [updateTracks_general s dets now hde hte]
      set m := matchDetectionsToTracks s.tracks (calculateIoUMatrix s.tracks dets) dets
        with hm
      set acc0 : UTAcc := (⟨s.nextTrackId, [], s.disappeared, []⟩ : UTAcc) with hacc0
      set um := updateMatchedLoop s.historyLength s.tracks dets now m.1 acc0 with humdef
      set sp := spawnLoop dets now m.2 um with hspdef
      have humt : um.nextId = s.nextTrackId :=
        uml_nextId s.historyLength s.tracks dets now m.1 acc0
      have hsple : um.nextId ≤ sp.nextId := spawn_nextId_le dets now m.2 um
      obtain ⟨ht1, ht2, ht3, ht4, ht5⟩ := handleD_proj
        { s with nextTrackId := sp.nextId, disappeared := sp.dis }
        sp.current sp.updated
      have ht1' : (handleDisappearances
            { s with nextTrackId := sp.nextId, disappeared := sp.dis }
            sp.current sp.updated).1.tracks =
          (hdLoop s.maxDisappearedFrames s.tracks sp.current sp.dis).current := ht1
      have ht2' : (handleDisappearances
            { s with nextTrackId := sp.nextId, disappeared := sp.dis }
            sp.current sp.updated).1.disappeared =
          (hdLoop s.maxDisappearedFrames s.tracks sp.current sp.dis).removed.foldl
            (fun m i => alDel i m)
            (hdLoop s.maxDisappearedFrames s.tracks sp.current sp.dis).dis := ht2
      have ht3' : (handleDisappearances
            { s with nextTrackId := sp.nextId, disappeared := sp.dis }
            sp.current sp.updated).1.nextTrackId = sp.nextId := ht3
      have ht5' : (handleDisappearances
            { s with nextTrackId := sp.nextId, disappeared := sp.dis }
            sp.current sp.updated).2.disappeared =
          (hdLoop s.maxDisappearedFrames s.tracks sp.current sp.dis).removed := ht5
      refine ⟨?_, ?_, ?_, ?_⟩
      · intro id tr hmem hnupd
        have hnupd' : id ∉ sp.updated := ht4 ▸ hnupd
        obtain ⟨l, hl⟩ := spawn_updated_suffix dets now m.2 um
        have hnum : id ∉ um.updated := fun hmm =>
          hnupd' (by rw [hl]; exact List.mem_append_left _ hmm)
        have hsp := spawn_untouched dets now m.2 um id hnupd'
        have hum := uml_untouched s.historyLength s.tracks dets now m.1 acc0 id hnum
        have hcur : alGet id sp.current = none := by rw [hsp.1, hum.1]; rfl
        have hdis : alGet id sp.dis = alGet id s.disappeared := by rw [hsp.2, hum.2]
        have habs := hdLoop_absent s.maxDisappearedFrames s.tracks sp.current sp.dis
          id tr hnodup hmem hcur
        rw [hdis] at habs
        constructor
        · intro hle
          obtain ⟨h1, h2, h3⟩ := habs.2 hle
          refine ⟨ht1' ▸ h1, ?_⟩
          rw [ht2', alGet_foldl_alDel id _ _ h3]
          exact h2
        · intro hgt
          obtain ⟨h1, h2⟩ := habs.1 hgt
          exact ⟨ht1' ▸ h1, ht5' ▸ h2⟩
      · rw [ht3']
        omega
      · intro id hne
        rw [ht1'] at hne
        rw [ht3']
        rcases hdLoop_current_origin s.maxDisappearedFrames s.tracks sp.current sp.dis id
          with h | h | h
        · exact absurd h hne
        · rcases spawn_current_origin dets now m.2 um id with h2 | h2 | h2
          · exact absurd h2 h
          · rcases uml_current_origin s.historyLength s.tracks dets now m.1 acc0 id
              with h3 | h3 | h3
            · exact absurd h3 h2
            · exact absurd rfl h3
            · have hk : id ∈ s.tracks.map Prod.fst := by
                by_contra hc
                exact h3 ((alGet_eq_none_iff id s.tracks).mpr hc)
              have := hlt id hk
              omega
          · exact h2.2
        · have := hlt id h
          omega
      · intro id hid hnone
        rw [ht1']
        by_contra hc
        rcases hdLoop_current_origin s.maxDisappearedFrames s.tracks sp.current sp.dis id
          with h | h | h
        · exact hc h
        · rcases spawn_current_origin dets now m.2 um id with h2 | h2 | h2
          · exact h h2
          · rcases uml_current_origin s.historyLength s.tracks dets now m.1 acc0 id
              with h3 | h3 | h3
            · exact h2 h3
            · exact h3 rfl
            · exact h3 hnone
          · omega
        · exact (alGet_eq_none_iff id s.tracks).mp hnone h

/-- Witness for `c5_track_lifecycle` on a concrete one-track state and an
empty frame. -/
theorem c5_track_lifecycle_witness :
    (2 : Nat) ≤ (updateTracks
      ⟨2/5, 15, 10, 2, [(1, ⟨1, ⟨0, 0, 2, 2⟩, 5, [⟨5, ⟨0, 0, 2, 2⟩, (1, 1), 1⟩]⟩)], []⟩
      [] 6).1.nextTrackId :=
  (c5_track_lifecycle
    ⟨2/5, 15, 10, 2, [(1, ⟨1, ⟨0, 0, 2, 2⟩, 5, [⟨5, ⟨0, 0, 2, 2⟩, (1, 1), 1⟩]⟩)], []⟩
    [] 6 (by simp) (by intro id h; simp at h; subst h; decide)).2.1

/-- C4: the per-frame association is a one-to-one partial matching — no
detection index and no track id occurs in two matched pairs, every matched
pair meets the `minIoU = 0.3` threshold against the track's last bbox, the
unmatched detection indices are exactly the in-range indices not matched,
and every unmatched detection spawns a new track (stored under the next
fresh ids in the resulting live set). -/
theorem c4_association_matching (s : PTState) (dets : List Det) (now : Nat)
    (hnodup : (s.tracks.map Prod.fst).Nodup) (hde : dets.isEmpty = false) :
    (((matchDetectionsToTracks s.tracks (calculateIoUMatrix s.tracks dets) dets).1.map
        Prod.snd).Nodup ∧
      ((matchDetectionsToTracks s.tracks (calculateIoUMatrix s.tracks dets) dets).1.map
        Prod.fst).Nodup) ∧
    (∀ p ∈ (matchDetectionsToTracks s.tracks (calculateIoUMatrix s.tracks dets) dets).1,
      p.2 < dets.length ∧
      ∃ tr, (p.1, tr) ∈ s.tracks ∧
        3 / 10 ≤ calculateIoU tr.bbox (dets.getD p.2 defaultDet).bbox) ∧
    (∀ j, j ∈ (matchDetectionsToTracks s.tracks (calculateIoUMatrix s.tracks dets) dets).2 ↔
      (j < dets.length ∧
        j ∉ (matchDetectionsToTracks s.tracks
          (calculateIoUMatrix s.tracks dets) dets).1.map Prod.snd)) ∧
    (∀ k, k < (matchDetectionsToTracks s.tracks
        (calculateIoUMatrix s.tracks dets) dets).2.length →
      alGet (s.nextTrackId + k) (updateTracks s dets now).1.tracks =
        some (initializeTrack (s.nextTrackId + k)
          (dets.getD ((matchDetectionsToTracks s.tracks
            (calculateIoUMatrix s.tracks dets) dets).2.getD k 0) defaultDet) now)) := by
  cases hts : s.tracks.isEmpty with
  | true =>
    have hsem : s.tracks = [] := List.isEmpty_iff.mp hts
    have hmd : matchDetectionsToTracks s.tracks (calculateIoUMatrix s.tracks dets) dets =
        ([], List.range dets.length) := by
      rw [hsem]
      rfl
    rw [hmd, updateTracks_empty_tracks s dets now hde hts]
    refine ⟨⟨List.nodup_nil, List.nodup_nil⟩, fun p hp => absurd hp (List.not_mem_nil p),
      fun j => by simp [List.mem_range], ?_⟩
    intro k hk
    have hk' : k < dets.length := by simpa using hk
    have hget := spawnAll_get now dets s.nextTrackId k hk'
    have hrg : (List.range dets.length).getD k 0 = k := by
      rw [List.getD_eq_getElem _ _ (by simpa using hk')]
      simp
    show alGet (s.nextTrackId + k) (spawnAllLoop now dets s.nextTrackId).current = _
    rw [hrg]
    exact hget
  | false =>
    have hmne : (calculateIoUMatrix s.tracks dets).isEmpty = false := by
      unfold calculateIoUMatrix
      cases hsl : s.tracks with
      | nil => rw [hsl] at hts; simp at hts
      | cons a t => rfl
    have hmd : matchDetectionsToTracks s.tracks (calculateIoUMatrix s.tracks dets) dets =
        ((greedyLoop ((s.tracks.map Prod.fst).zip (calculateIoUMatrix s.tracks dets)) ∅).1,
          (List.range dets.length).filter (fun i => decide (i ∉
            (greedyLoop ((s.tracks.map Prod.fst).zip (calculateIoUMatrix s.tracks dets)) ∅).2))) := by
      unfold matchDetectionsToTracks
      rw [if_neg (by simp [hmne])]
    set rows := (s.tracks.map Prod.fst).zip (calculateIoUMatrix s.tracks dets) with hrowsdef
    have hrows : rows = s.tracks.map
        (fun kv => (kv.1, dets.map (fun d => calculateIoU kv.2.bbox d.bbox))) := by
      rw [hrowsdef]
      unfold calculateIoUMatrix
      exact List.zip_map' _ _ _
    have hrowfst : rows.map Prod.fst = s.tracks.map Prod.fst := by
      rw [hrows, List.map_map]
      rfl
    obtain ⟨g1, g2, g3, g4, g5⟩ := greedyLoop_spec rows ∅
    have hpair : ∀ p ∈ (greedyLoop rows ∅).1,
        p.2 < dets.length ∧
        ∃ tr, (p.1, tr) ∈ s.tracks ∧
          3 / 10 ≤ calculateIoU tr.bbox (dets.getD p.2 defaultDet).bbox := by
      intro p hp
      obtain ⟨_, _, ious, hm, hge', hlt'⟩ := g2 p hp
      rw [hrows] at hm
      obtain ⟨kv, hkv, hkveq⟩ := List.mem_map.mp hm
      have hfst : kv.1 = p.1 := congrArg Prod.fst hkveq
      have hsnd : dets.map (fun d => calculateIoU kv.2.bbox d.bbox) = ious :=
        congrArg Prod.snd hkveq
      have hlen : p.2 < dets.length := by
        rw [← hsnd, List.length_map] at hlt'
        exact hlt'
      refine ⟨hlen, kv.2, ?_, ?_⟩
      · rw [← hfst]
        exact hkv
      · rw [← hsnd] at hge'
        rwa [List.getD_eq_getElem _ _ (by simpa using hlen), List.getElem_map,
          ← List.getD_eq_getElem dets defaultDet hlen] at hge'
    have hmd1 : (matchDetectionsToTracks s.tracks (calculateIoUMatrix s.tracks dets) dets).1 =
        (greedyLoop rows ∅).1 := by rw [hmd]
    have hmd2 : (matchDetectionsToTracks s.tracks (calculateIoUMatrix s.tracks dets) dets).2 =
        (List.range dets.length).filter
          (fun i => decide (i ∉ (greedyLoop rows ∅).2)) := by rw [hmd]
    rw [hmd1, hmd2]
    refine ⟨⟨g3, g4 (hrowfst ▸ hnodup)⟩, hpair, ?_, ?_⟩
    · intro j
      simp only [List.mem_filter, List.mem_range, decide_eq_true_eq]
      constructor
      · rintro ⟨hjl, hju⟩
        refine ⟨hjl, fun hjs => ?_⟩
        obtain ⟨p, hp, hpj⟩ := List.mem_map.mp hjs
        exact hju (hpj ▸ (g2 p hp).2.1)
      · rintro ⟨hjl, hjs⟩
        refine ⟨hjl, fun hju => ?_⟩
        rcases g5 j hju with h | h
        · exact absurd h (Finset.not_mem_empty j)
        · exact hjs h
    · rw [updateTracks_general s dets now hde hts, hmd1, hmd2]
      intro k hk
      set js := (List.range dets.length).filter
        (fun i => decide (i ∉ (greedyLoop rows ∅).2)) with hjsdef
      set acc0 : UTAcc := (⟨s.nextTrackId, [], s.disappeared, []⟩ : UTAcc) with hacc0
      set um := updateMatchedLoop s.historyLength s.tracks dets now
        (greedyLoop rows ∅).1 acc0 with humdef
      set sp := spawnLoop dets now js um with hspdef
      have humt : um.nextId = s.nextTrackId :=
        uml_nextId s.historyLength s.tracks dets now (greedyLoop rows ∅).1 acc0
      have hget := spawn_get dets now js um k hk
      rw [humt] at hget
      have hfin := hdLoop_present s.maxDisappearedFrames s.tracks sp.current sp.dis
        (s.nextTrackId + k)
        (initializeTrack (s.nextTrackId + k)
          (dets.getD (js.getD k 0) defaultDet) now) hget
      have hproj : (handleDisappearances
            { s with nextTrackId := sp.nextId, disappeared := sp.dis }
            sp.current sp.updated).1.tracks =
          (hdLoop s.maxDisappearedFrames s.tracks sp.current sp.dis).current :=
        (handleD_proj { s with nextTrackId := sp.nextId, disappeared := sp.dis }
          sp.current sp.updated).1
      rw [hproj]
      exact hfin.1

/-- Witness for `c4_association_matching` on a concrete one-track,
one-detection frame. -/
theorem c4_association_matching_witness :
    ((matchDetectionsToTracks
      [(1, ⟨1, ⟨0, 0, 2, 2⟩, 5, [⟨5, ⟨0, 0, 2, 2⟩, (1, 1), 1⟩]⟩)]
      (calculateIoUMatrix
        [(1, ⟨1, ⟨0, 0, 2, 2⟩, 5, [⟨5, ⟨0, 0, 2, 2⟩, (1, 1), 1⟩]⟩)]
        [⟨⟨0, 0, 2, 2⟩, "person", 1⟩])
      [⟨⟨0, 0, 2, 2⟩, "person", 1⟩]).1.map Prod.snd).Nodup :=
  (c4_association_matching
    ⟨2/5, 15, 10, 2, [(1, ⟨1, ⟨0, 0, 2, 2⟩, 5, [⟨5, ⟨0, 0, 2, 2⟩, (1, 1), 1⟩]⟩)], []⟩
    [⟨⟨0, 0, 2, 2⟩, "person", 1⟩] 6 (by simp) rfl).1.1

/-- `checkAreaCrossing` either records an entry, records an exit, or does
nothing. -/
theorem checkAreaCrossing_cases (cross : List (Nat × Counts)) (area : Boundary)
    (person : Nat) (pos : ℚ × ℚ) (now : Nat) :
    checkAreaCrossing cross area person pos now =
      (bumpCounter cross area.id "in",
        { area with peopleInside := insert person area.peopleInside },
        some ⟨area.id, person, "in", pos, now⟩) ∨
    checkAreaCrossing cross area person pos now =
      (bumpCounter cross area.id "out",
        { area with peopleInside := area.peopleInside.erase person },
        some ⟨area.id, person, "out", pos, now⟩) ∨
    checkAreaCrossing cross area person pos now = (cross, area, none) := by
  simp only [checkAreaCrossing]
  split_ifs
  · exact Or.inl rfl
  · exact Or.inr (Or.inl rfl)
  · exact Or.inr (Or.inr rfl)

theorem checkAreaCrossing_event (cross : List (Nat × Counts)) (area : Boundary)
    (person : Nat) (pos : ℚ × ℚ) (now : Nat) :
    ∀ ev ∈ (checkAreaCrossing cross area person pos now).2.2.toList,
      ev.personId = person ∧ ev.timestamp = now ∧ ev.lineId = area.id := by
  intro ev hev
  rcases checkAreaCrossing_cases cross area person pos now with h | h | h <;>
    rw [h] at hev <;> simp at hev
  · subst hev; exact ⟨rfl, rfl, rfl⟩
  · subst hev; exact ⟨rfl, rfl, rfl⟩

theorem checkAreaCrossing_cross (cross : List (Nat × Counts)) (area : Boundary)
    (person : Nat) (pos : ℚ × ℚ) (now : Nat) (b0 : Nat)
    (h : ∀ ev ∈ (checkAreaCrossing cross area person pos now).2.2.toList,
      ev.lineId ≠ b0) :
    alGet b0 (checkAreaCrossing cross area person pos now).1 = alGet b0 cross := by
  rcases checkAreaCrossing_cases cross area person pos now with hc | hc | hc
  · have hid : area.id ≠ b0 := h ⟨area.id, person, "in", pos, now⟩ (by rw [hc]; simp)
    rw [hc]
    exact alGet_alSet_ne _ _ hid
  · have hid : area.id ≠ b0 := h ⟨area.id, person, "out", pos, now⟩ (by rw [hc]; simp)
    rw [hc]
    exact alGet_alSet_ne _ _ hid
  · rw [hc]

theorem crossKey_ne_of_ne {t b b' : Nat} (h : b ≠ b') :
    crossKey t b ≠ crossKey t b' :=
  fun hc => h (crossKey_injective hc).2

theorem crossKey_ne_of_person_ne {t t' b b' : Nat} (h : t ≠ t') :
    crossKey t b ≠ crossKey t' b' :=
  fun hc => h (crossKey_injective hc).1

/-- One step of the `checkLineCrossings` boundary loop: the head boundary is
an area, or it is skipped (no endpoints / no intersection / within the
cooldown), or its crossing is accepted. -/
theorem clcAux_cons_cases (person : Nat) (pp cp : ℚ × ℚ) (now : Nat)
    (b : Boundary) (rest : List Boundary) (cross : List (Nat × Counts))
    (ct : List (List Char × CrossRec)) :
    (b.btype = "area" ∧
      clcAux person pp cp now (b :: rest) cross ct =
        ⟨(checkAreaCrossing cross b person cp now).2.1 ::
            (clcAux person pp cp now rest
              (checkAreaCrossing cross b person cp now).1 ct).lines,
          (clcAux person pp cp now rest
            (checkAreaCrossing cross b person cp now).1 ct).cross,
          (clcAux person pp cp now rest
            (checkAreaCrossing cross b person cp now).1 ct).ct,
          (checkAreaCrossing cross b person cp now).2.2.toList ++
            (clcAux person pp cp now rest
              (checkAreaCrossing cross b person cp now).1 ct).events⟩) ∨
    clcAux person pp cp now (b :: rest) cross ct =
      ⟨b :: (clcAux person pp cp now rest cross ct).lines,
        (clcAux person pp cp now rest cross ct).cross,
        (clcAux person pp cp now rest cross ct).ct,
        (clcAux person pp cp now rest cross ct).events⟩ ∨
    (∃ ls le ipt, b.btype ≠ "area" ∧ b.bstart = some ls ∧ b.bend = some le ∧
      lineIntersection pp cp (ls.x, ls.y) (le.x, le.y) = some ipt ∧
      (∀ rc, alGet (crossKey person b.id) ct = some rc →
        rc.timestamp + 2000 ≤ now) ∧
      clcAux person pp cp now (b :: rest) cross ct =
        ⟨b :: (clcAux person pp cp now rest
            (bumpCounter cross b.id
              (determineLineCrossingDirection pp cp (ls.x, ls.y) (le.x, le.y)))
            (alSet (crossKey person b.id)
              ⟨now, determineLineCrossingDirection pp cp (ls.x, ls.y) (le.x, le.y)⟩
              ct)).lines,
          (clcAux person pp cp now rest
            (bumpCounter cross b.id
              (determineLineCrossingDirection pp cp (ls.x, ls.y) (le.x, le.y)))
            (alSet (crossKey person b.id)
              ⟨now, determineLineCrossingDirection pp cp (ls.x, ls.y) (le.x, le.y)⟩
              ct)).cross,
          (clcAux person pp cp now rest
            (bumpCounter cross b.id
              (determineLineCrossingDirection pp cp (ls.x, ls.y) (le.x, le.y)))
            (alSet (crossKey person b.id)
              ⟨now, determineLineCrossingDirection pp cp (ls.x, ls.y) (le.x, le.y)⟩
              ct)).ct,
          ⟨b.id, person,
              determineLineCrossingDirection pp cp (ls.x, ls.y) (le.x, le.y),
              ipt, now⟩ ::
            (clcAux person pp cp now rest
              (bumpCounter cross b.id
                (determineLineCrossingDirection pp cp (ls.x, ls.y) (le.x, le.y)))
              (alSet (crossKey person b.id)
                ⟨now, determineLineCrossingDirection pp cp (ls.x, ls.y) (le.x, le.y)⟩
                ct)).events⟩) := by
  by_cases harea : b.btype = "area"
  · refine Or.inl ⟨harea, ?_⟩
    simp only [clcAux, if_pos harea]
  · cases hbs : b.bstart with
    | none =>
      refine Or.inr (Or.inl ?_)
      simp only [clcAux, if_neg harea, hbs]
    | some ls =>
      cases hbe : b.bend with
      | none =>
        refine Or.inr (Or.inl ?_)
        simp only [clcAux, if_neg harea, hbs, hbe]
      | some le =>
        cases hint : lineIntersection pp cp (ls.x, ls.y) (le.x, le.y) with
        | none =>
          refine Or.inr (Or.inl ?_)
          simp only [clcAux, if_neg harea, hbs, hbe, hint]
        | some ipt =>
          cases hget : alGet (crossKey person b.id) ct with
          | none =>
            refine Or.inr (Or.inr ⟨ls, le, ipt, harea, rfl, rfl, hint,
              fun rc hrc => Option.noConfusion hrc, ?_⟩)
            simp only [clcAux, if_neg harea, hbs, hbe, hint, hget]
            rfl
          | some rec0 =>
            by_cases hcool : now - rec0.timestamp < 2000
            · refine Or.inr (Or.inl ?_)
              simp only [clcAux, if_neg harea, hbs, hbe, hint, hget]
              simp [hcool]
            · refine Or.inr (Or.inr ⟨ls, le, ipt, harea, rfl, rfl, hint,
                fun rc hrc => ?_, ?_⟩)
              · have heq : rec0 = rc := Option.some.inj hrc
                subst heq
                omega
              · simp only [clcAux, if_neg harea, hbs, hbe, hint, hget]
                simp [hcool]

theorem clcAux_events_shape (person : Nat) (pp cp : ℚ × ℚ) (now : Nat)
    (bs : List Boundary) :
    ∀ cross ct, ∀ ev ∈ (clcAux person pp cp now bs cross ct).events,
      ev.personId = person ∧ ev.timestamp = now ∧
      ev.lineId ∈ bs.map Boundary.id := by
  induction bs with
  | nil => intro cross ct ev hev; simp [clcAux] at hev
  | cons b rest ih =>
    intro cross ct ev hev
    rcases clcAux_cons_cases person pp cp now b rest cross ct with
      ⟨harea, heq⟩ | heq | ⟨ls, le, ipt, hna, hbs, hbe, hint, hdup, heq⟩
    · rw [heq] at hev
      rcases List.mem_append.mp hev with hev | hev
      · obtain ⟨h1, h2, h3⟩ := checkAreaCrossing_event cross b person cp now ev hev
        exact ⟨h1, h2, by rw [List.map_cons, h3]; exact List.mem_cons_self _ _⟩
      · obtain ⟨h1, h2, h3⟩ := ih _ _ ev hev
        exact ⟨h1, h2, by rw [List.map_cons]; exact List.mem_cons_of_mem _ h3⟩
    · rw [heq] at hev
      obtain ⟨h1, h2, h3⟩ := ih _ _ ev hev
      exact ⟨h1, h2, by rw [List.map_cons]; exact List.mem_cons_of_mem _ h3⟩
    · rw [heq] at hev
      rcases List.mem_cons.mp hev with hev | hev
      · subst hev
        exact ⟨rfl, rfl, by rw [List.map_cons]; exact List.mem_cons_self _ _⟩
      · obtain ⟨h1, h2, h3⟩ := ih _ _ ev hev
        exact ⟨h1, h2, by rw [List.map_cons]; exact List.mem_cons_of_mem _ h3⟩

theorem clcAux_ct_preserved (person : Nat) (pp cp : ℚ × ℚ) (now : Nat)
    (bs : List Boundary) :
    ∀ cross ct k, (∀ ev ∈ (clcAux person pp cp now bs cross ct).events,
        k ≠ crossKey person ev.lineId) →
      alGet k (clcAux person pp cp now bs cross ct).ct = alGet k ct := by
  induction bs with
  | nil => intro cross ct k _; rfl
  | cons b rest ih =>
    intro cross ct k hk
    rcases clcAux_cons_cases person pp cp now b rest cross ct with
      ⟨harea, heq⟩ | heq | ⟨ls, le, ipt, hna, hbs, hbe, hint, hdup, heq⟩
    · rw [heq] at hk ⊢
      exact ih _ _ k (fun ev hev => hk ev (List.mem_append_right _ hev))
    · rw [heq] at hk ⊢
      exact ih _ _ k hk
    · rw [heq] at hk ⊢
      have hne : k ≠ crossKey person b.id :=
        hk _ (List.mem_cons_self _ _)
      rw [ih _ _ k (fun ev hev => hk ev (List.mem_cons_of_mem _ hev)),
        alGet_alSet_ne _ _ (fun he => hne he.symm)]

theorem clcAux_events_nodup (person : Nat) (pp cp : ℚ × ℚ) (now : Nat)
    (bs : List Boundary) :
    ∀ cross ct, (bs.map Boundary.id).Nodup →
      ((clcAux person pp cp now bs cross ct).events.map Event.lineId).Nodup := by
  induction bs with
  | nil => intro cross ct _; simp [clcAux]
  | cons b rest ih =>
    intro cross ct hnd
    rw [List.map_cons, List.nodup_cons] at hnd
    rcases clcAux_cons_cases person pp cp now b rest cross ct with
      ⟨harea, heq⟩ | heq | ⟨ls, le, ipt, hna, hbs, hbe, hint, hdup, heq⟩
    · rw [heq]
      simp only [List.map_append]
      rw [List.nodup_append]
      refine ⟨?_, ih _ _ hnd.2, ?_⟩
      · cases hop : (checkAreaCrossing cross b person cp now).2.2 with
        | none => simp
        | some ev0 => simp
      · intro x hx hx2
        obtain ⟨ev1, hev1, hev1x⟩ := List.mem_map.mp hx
        obtain ⟨ev2, hev2, hev2x⟩ := List.mem_map.mp hx2
        have h1 := (checkAreaCrossing_event cross b person cp now ev1 hev1).2.2
        have h2 := (clcAux_events_shape person pp cp now rest _ _ ev2 hev2).2.2
        have hxb : x = b.id := hev1x ▸ h1
        have hx2b : x ∈ List.map Boundary.id rest := hev2x ▸ h2
        exact hnd.1 (hxb ▸ hx2b)
    · rw [heq]
      exact ih _ _ hnd.2
    · rw [heq]
      rw [List.map_cons, List.nodup_cons]
      refine ⟨fun hmem => ?_, ih _ _ hnd.2⟩
      obtain ⟨ev2, hev2, hev2x⟩ := List.mem_map.mp hmem
      have h2 := (clcAux_events_shape person pp cp now rest _ _ ev2 hev2).2.2
      rw [hev2x] at h2
      exact hnd.1 h2

theorem clcAux_cross_preserved (person : Nat) (pp cp : ℚ × ℚ) (now : Nat)
    (bs : List Boundary) :
    ∀ cross ct b0, (∀ ev ∈ (clcAux person pp cp now bs cross ct).events,
        ev.lineId ≠ b0) →
      alGet b0 (clcAux person pp cp now bs cross ct).cross = alGet b0 cross := by
  induction bs with
  | nil => intro cross ct b0 _; rfl
  | cons b rest ih =>
    intro cross ct b0 hk
    rcases clcAux_cons_cases person pp cp now b rest cross ct with
      ⟨harea, heq⟩ | heq | ⟨ls, le, ipt, hna, hbs, hbe, hint, hdup, heq⟩
    · rw [heq] at hk ⊢
      rw [ih _ _ b0 (fun ev hev => hk ev (List.mem_append_right _ hev))]
      exact checkAreaCrossing_cross cross b person cp now b0
        (fun ev hev => hk ev (List.mem_append_left _ hev))
    · rw [heq] at hk ⊢
      exact ih _ _ b0 hk
    · rw [heq] at hk ⊢
      have hne : b.id ≠ b0 := hk _ (List.mem_cons_self _ _)
      rw [ih _ _ b0 (fun ev hev => hk ev (List.mem_cons_of_mem _ hev))]
      unfold bumpCounter
      exact alGet_alSet_ne _ _ hne

theorem clcAux_ct_event (person : Nat) (pp cp : ℚ × ℚ) (now : Nat)
    (bs : List Boundary) :
    ∀ cross ct, (∀ b' ∈ bs, b'.btype = "line") → (bs.map Boundary.id).Nodup →
      ∀ ev ∈ (clcAux person pp cp now bs cross ct).events,
        alGet (crossKey person ev.lineId) (clcAux person pp cp now bs cross ct).ct =
          some ⟨now, ev.direction⟩ := by
  induction bs with
  | nil => intro cross ct _ _ ev hev; simp [clcAux] at hev
  | cons b rest ih =>
    intro cross ct hline hnd ev hev
    rw [List.map_cons, List.nodup_cons] at hnd
    rcases clcAux_cons_cases person pp cp now b rest cross ct with
      ⟨harea, heq⟩ | heq | ⟨ls, le, ipt, hna, hbs, hbe, hint, hdup, heq⟩
    · have hbl := hline b (List.mem_cons_self _ _)
      rw [hbl] at harea
      exact absurd harea (by decide)
    · rw [heq] at hev ⊢
      exact ih _ _ (fun b' hb' => hline b' (List.mem_cons_of_mem _ hb')) hnd.2 ev hev
    · rw [heq] at hev ⊢
      rcases List.mem_cons.mp hev with hev | hev
      · subst hev
        have hpres := clcAux_ct_preserved person pp cp now rest
          (bumpCounter cross b.id
            (determineLineCrossingDirection pp cp (ls.x, ls.y) (le.x, le.y)))
          (alSet (crossKey person b.id)
            ⟨now, determineLineCrossingDirection pp cp (ls.x, ls.y) (le.x, le.y)⟩ ct)
          (crossKey person b.id) ?_
        · rw [hpres, alGet_alSet_self]
        · intro ev' hev'
          have h3 := (clcAux_events_shape person pp cp now rest _ _ ev' hev').2.2
          have hne : ev'.lineId ≠ b.id := fun he => hnd.1 (he ▸ h3)
          exact crossKey_ne_of_ne (fun he => hne he.symm)
      · exact ih _ _ (fun b' hb' => hline b' (List.mem_cons_of_mem _ hb')) hnd.2 ev hev

theorem clcAux_accept_bound (person : Nat) (pp cp : ℚ × ℚ) (now : Nat)
    (bs : List Boundary) :
    ∀ cross ct, (∀ b' ∈ bs, b'.btype = "line") → (bs.map Boundary.id).Nodup →
      ∀ ev ∈ (clcAux person pp cp now bs cross ct).events,
        ∀ rc, alGet (crossKey person ev.lineId) ct = some rc →
          rc.timestamp + 2000 ≤ now := by
  induction bs with
  | nil => intro cross ct _ _ ev hev; simp [clcAux] at hev
  | cons b rest ih =>
    intro cross ct hline hnd ev hev rc hrc
    rw [List.map_cons, List.nodup_cons] at hnd
    rcases clcAux_cons_cases person pp cp now b rest cross ct with
      ⟨harea, heq⟩ | heq | ⟨ls, le, ipt, hna, hbs, hbe, hint, hdup, heq⟩
    · have hbl := hline b (List.mem_cons_self _ _)
      rw [hbl] at harea
      exact absurd harea (by decide)
    · rw [heq] at hev
      exact ih _ _ (fun b' hb' => hline b' (List.mem_cons_of_mem _ hb')) hnd.2
        ev hev rc hrc
    · rw [heq] at hev
      rcases List.mem_cons.mp hev with hev | hev
      · subst hev
        exact hdup rc hrc
      · have h3 := (clcAux_events_shape person pp cp now rest _ _ ev hev).2.2
        have hne : ev.lineId ≠ b.id := fun he => hnd.1 (he ▸ h3)
        have hrc' : alGet (crossKey person ev.lineId)
            (alSet (crossKey person b.id)
              ⟨now, determineLineCrossingDirection pp cp (ls.x, ls.y) (le.x, le.y)⟩
              ct) = some rc := by
          rw [alGet_alSet_ne _ _ (crossKey_ne_of_ne hne).symm]
          exact hrc
        exact ih _ _ (fun b' hb' => hline b' (List.mem_cons_of_mem _ hb')) hnd.2
          ev hev rc hrc'

theorem clcAux_lines_line_only (person : Nat) (pp cp : ℚ × ℚ) (now : Nat)
    (bs : List Boundary) :
    ∀ cross ct, (∀ b' ∈ bs, b'.btype = "line") →
      (clcAux person pp cp now bs cross ct).lines = bs := by
  induction bs with
  | nil => intro cross ct _; rfl
  | cons b rest ih =>
    intro cross ct hline
    rcases clcAux_cons_cases person pp cp now b rest cross ct with
      ⟨harea, heq⟩ | heq | ⟨ls, le, ipt, hna, hbs, hbe, hint, hdup, heq⟩
    · have hbl := hline b (List.mem_cons_self _ _)
      rw [hbl] at harea
      exact absurd harea (by decide)
    · rw [heq]
      have := ih cross ct (fun b' hb' => hline b' (List.mem_cons_of_mem _ hb'))
      rw [this]
    · rw [heq]
      have := ih
        (bumpCounter cross b.id
          (determineLineCrossingDirection pp cp (ls.x, ls.y) (le.x, le.y)))
        (alSet (crossKey person b.id)
          ⟨now, determineLineCrossingDirection pp cp (ls.x, ls.y) (le.x, le.y)⟩ ct)
        (fun b' hb' => hline b' (List.mem_cons_of_mem _ hb'))
      rw [this]

/-- Combined single-call properties of `checkLineCrossings` on a registry of
line boundaries with distinct ids. -/
theorem checkLineCrossings_spec (s : LMState) (t : Nat) (pp cp : ℚ × ℚ)
    (sx sy : ℚ) (now : Nat)
    (hline : ∀ b ∈ s.lines, b.btype = "line")
    (hnodup : (s.lines.map Boundary.id).Nodup) :
    (∀ ev ∈ (checkLineCrossings s t pp cp sx sy now).2,
      ev.personId = t ∧ ev.timestamp = now) ∧
    (checkLineCrossings s t pp cp sx sy now).1.lines = s.lines ∧
    (∀ ev ∈ (checkLineCrossings s t pp cp sx sy now).2,
      alGet (crossKey t ev.lineId)
        (checkLineCrossings s t pp cp sx sy now).1.crossedTracks =
        some ⟨now, ev.direction⟩) ∧
    (∀ ev ∈ (checkLineCrossings s t pp cp sx sy now).2,
      ∀ rc, alGet (crossKey t ev.lineId) s.crossedTracks = some rc →
        rc.timestamp + 2000 ≤ now) ∧
    (∀ k, (∀ ev ∈ (checkLineCrossings s t pp cp sx sy now).2,
        k ≠ crossKey t ev.lineId) →
      alGet k (checkLineCrossings s t pp cp sx sy now).1.crossedTracks =
        alGet k s.crossedTracks) ∧
    (∀ b0, (∀ ev ∈ (checkLineCrossings s t pp cp sx sy now).2,
        ev.lineId ≠ b0) →
      alGet b0 (checkLineCrossings s t pp cp sx sy now).1.lineCrossings =
        alGet b0 s.lineCrossings) ∧
    ((checkLineCrossings s t pp cp sx sy now).2.map Event.lineId).Nodup := by
  unfold checkLineCrossings
  by_cases hz : t = 0
  · rw [if_pos hz]
    exact ⟨fun ev hev => absurd hev (List.not_mem_nil ev), rfl,
      fun ev hev => absurd hev (List.not_mem_nil ev),
      fun ev hev => absurd hev (List.not_mem_nil ev),
      fun k _ => rfl, fun b0 _ => rfl, List.nodup_nil⟩
  · rw [if_neg hz]
    refine ⟨?_, ?_, ?_, ?_, ?_, ?_, ?_⟩
    · intro ev hev
      have h := clcAux_events_shape t (pp.1 * sx, pp.2 * sy) (cp.1 * sx, cp.2 * sy)
        now s.lines s.lineCrossings s.crossedTracks ev hev
      exact ⟨h.1, h.2.1⟩
    · exact clcAux_lines_line_only t (pp.1 * sx, pp.2 * sy) (cp.1 * sx, cp.2 * sy)
        now s.lines s.lineCrossings s.crossedTracks hline
    · intro ev hev
      exact clcAux_ct_event t (pp.1 * sx, pp.2 * sy) (cp.1 * sx, cp.2 * sy)
        now s.lines s.lineCrossings s.crossedTracks hline hnodup ev hev
    · intro ev hev rc hrc
      exact clcAux_accept_bound t (pp.1 * sx, pp.2 * sy) (cp.1 * sx, cp.2 * sy)
        now s.lines s.lineCrossings s.crossedTracks hline hnodup ev hev rc hrc
    · intro k hk
      exact clcAux_ct_preserved t (pp.1 * sx, pp.2 * sy) (cp.1 * sx, cp.2 * sy)
        now s.lines s.lineCrossings s.crossedTracks k hk
    · intro b0 hb0
      exact clcAux_cross_preserved t (pp.1 * sx, pp.2 * sy) (cp.1 * sx, cp.2 * sy)
        now s.lines s.lineCrossings s.crossedTracks b0 hb0
    · exact clcAux_events_nodup t (pp.1 * sx, pp.2 * sy) (cp.1 * sx, cp.2 * sy)
        now s.lines s.lineCrossings s.crossedTracks hnodup

/-- An existing deduplication record bounds every later accepted crossing of
the same (track, line) pair across a whole trace of calls. -/
theorem runAttempts_record_bound (sx sy : ℚ) (as : List Attempt) :
    ∀ s : LMState, (∀ b ∈ s.lines, b.btype = "line") →
      (s.lines.map Boundary.id).Nodup →
      ∀ t b r, alGet (crossKey t b) s.crossedTracks = some r →
        ∀ ev ∈ (runAttempts s sx sy as).2, ev.personId = t → ev.lineId = b →
          r.timestamp + 2000 ≤ ev.timestamp := by
  induction as with
  | nil => intro s _ _ t b r _ ev hev; simp [runAttempts] at hev
  | cons a rest ih =>
    intro s hline hnd t b r hrec ev hev hevp hevl
    obtain ⟨cl1, cl2, cl3, cl4, cl5, cl6, cl7⟩ :=
      checkLineCrossings_spec s a.person a.prevPos a.currPos sx sy a.now hline hnd
    have hline1 : ∀ b' ∈ (checkLineCrossings s a.person a.prevPos a.currPos
        sx sy a.now).1.lines, b'.btype = "line" := by
      rw [cl2]; exact hline
    have hnd1 : ((checkLineCrossings s a.person a.prevPos a.currPos
        sx sy a.now).1.lines.map Boundary.id).Nodup := by
      rw [cl2]; exact hnd
    simp only [runAttempts] at hev
    rcases List.mem_append.mp hev with hev1 | hev2
    · have hp := cl1 ev hev1
      have hpt : a.person = t := by rw [← hevp, hp.1]
      have hkey : crossKey a.person ev.lineId = crossKey t b := by
        rw [hpt, hevl]
      have := cl4 ev hev1 r (by rw [hkey]; exact hrec)
      rw [hp.2]
      exact this
    · by_cases hex : ∃ ev1 ∈ (checkLineCrossings s a.person a.prevPos a.currPos
          sx sy a.now).2, ev1.personId = t ∧ ev1.lineId = b
      · obtain ⟨ev1, hev1, hev1p, hev1l⟩ := hex
        have hp1 := cl1 ev1 hev1
        have hpt : a.person = t := by rw [← hev1p, hp1.1]
        have hkey : crossKey a.person ev1.lineId = crossKey t b := by
          rw [hpt, hev1l]
        have hrec1 : alGet (crossKey t b)
            (checkLineCrossings s a.person a.prevPos a.currPos sx sy a.now).1.crossedTracks =
            some ⟨a.now, ev1.direction⟩ := by
          rw [← hkey]
          exact cl3 ev1 hev1
        have hbound1 : r.timestamp + 2000 ≤ a.now :=
          cl4 ev1 hev1 r (by rw [hkey]; exact hrec)
        have hrest := ih _ hline1 hnd1 t b ⟨a.now, ev1.direction⟩ hrec1 ev hev2 hevp hevl
        simp only at hrest
        omega
      · have hpres : alGet (crossKey t b)
            (checkLineCrossings s a.person a.prevPos a.currPos sx sy a.now).1.crossedTracks =
            alGet (crossKey t b) s.crossedTracks := by
          apply cl5
          intro ev1 hev1 heq
          have hinj := crossKey_injective heq
          exact hex ⟨ev1, hev1, by rw [(cl1 ev1 hev1).1, ← hinj.1], hinj.2.symm⟩
        exact ih _ hline1 hnd1 t b r (by rw [hpres]; exact hrec) ev hev2 hevp hevl

/-- Across a whole trace, two accepted crossing events for the same
(track, line) pair are at least one cooldown apart. -/
theorem runAttempts_cooldown (sx sy : ℚ) (as : List Attempt) :
    ∀ s : LMState, (∀ b ∈ s.lines, b.btype = "line") →
      (s.lines.map Boundary.id).Nodup →
      List.Pairwise (fun e1 e2 => e1.personId = e2.personId →
        e1.lineId = e2.lineId → e1.timestamp + 2000 ≤ e2.timestamp)
        (runAttempts s sx sy as).2 := by
  induction as with
  | nil => intro s _ _; simp [runAttempts]
  | cons a rest ih =>
    intro s hline hnd
    obtain ⟨cl1, cl2, cl3, cl4, cl5, cl6, cl7⟩ :=
      checkLineCrossings_spec s a.person a.prevPos a.currPos sx sy a.now hline hnd
    have hline1 : ∀ b' ∈ (checkLineCrossings s a.person a.prevPos a.currPos
        sx sy a.now).1.lines, b'.btype = "line" := by
      rw [cl2]; exact hline
    have hnd1 : ((checkLineCrossings s a.person a.prevPos a.currPos
        sx sy a.now).1.lines.map Boundary.id).Nodup := by
      rw [cl2]; exact hnd
    simp only [runAttempts]
    rw [List.pairwise_append]
    refine ⟨?_, ih _ hline1 hnd1, ?_⟩
    · have hpw := List.pairwise_map.mp cl7
      exact hpw.imp (fun hne _ hl => absurd hl hne)
    · intro e1 he1 e2 he2 hp hl
      have hp1 := cl1 e1 he1
      have hrec1 : alGet (crossKey e1.personId e1.lineId)
          (checkLineCrossings s a.person a.prevPos a.currPos sx sy a.now).1.crossedTracks =
          some ⟨a.now, e1.direction⟩ := by
        rw [hp1.1]
        exact cl3 e1 he1
      have hrest := runAttempts_record_bound sx sy rest _ hline1 hnd1
        e1.personId e1.lineId ⟨a.now, e1.direction⟩ hrec1 e2 he2 hp.symm hl.symm
      simp only at hrest
      rw [hp1.2]
      exact hrest

/-- C1, counterexample: for an Area boundary the cooldown deduplicator is
never consulted — track 7 enters the area at t=1000 and exits at t=1500,
and both crossings are accepted (counted and forwarded) although they are
only 500 ms < 2000 ms apart. -/
theorem c1_area_cooldown_counterexample :
    (checkLineCrossings c1AreaState 7 (200, 200) (50, 50) 1 1 1000).2 =
      [⟨1, 7, "in", (50, 50), 1000⟩] ∧
    (checkLineCrossings
        (checkLineCrossings c1AreaState 7 (200, 200) (50, 50) 1 1 1000).1
        7 (50, 50) (150, 150) 1 1 1500).2 =
      [⟨1, 7, "out", (150, 150), 1500⟩] ∧
    alGet 1 (checkLineCrossings
        (checkLineCrossings c1AreaState 7 (200, 200) (50, 50) 1 1 1000).1
        7 (50, 50) (150, 150) 1 1 1500).1.lineCrossings = some ⟨1, 1⟩ ∧
    1500 < 1000 + 2000 := by
  have h1 : checkLineCrossings c1AreaState 7 (200, 200) (50, 50) 1 1 1000 =
      ({ lines := [{ c1Area with peopleInside := {7} }], nextLineId := 2,
          lineCrossings := [(1, ⟨1, 0⟩)], crossedTracks := [] },
        [⟨1, 7, "in", (50, 50), 1000⟩]) := by
    simp only [checkLineCrossings, c1AreaState, c1Area, clcAux, checkAreaCrossing,
      bumpCounter, alSet, alGet]
    norm_num
  have h2 : checkLineCrossings
      ({ lines := [{ c1Area with peopleInside := {7} }], nextLineId := 2,
          lineCrossings := [(1, ⟨1, 0⟩)], crossedTracks := [] } : LMState)
      7 (50, 50) (150, 150) 1 1 1500 =
      ({ lines := [c1Area], nextLineId := 2,
          lineCrossings := [(1, ⟨1, 1⟩)], crossedTracks := [] },
        [⟨1, 7, "out", (150, 150), 1500⟩]) := by
    simp only [checkLineCrossings, c1Area, clcAux, checkAreaCrossing,
      bumpCounter, alSet, alGet]
    norm_num
    decide
  rw [h1]
  rw [h2]
  exact ⟨rfl, rfl, rfl, by omega⟩

/-- C1, amended: the cooldown contract holds for Line boundaries — over any
trace of motion segments processed against a registry of line boundaries
with distinct ids, two accepted crossings of the same (track, line) pair
are at least 2000 ms apart, and a crossing attempt arriving within the
cooldown of the recorded crossing for its pair is dropped: no event for
that boundary, no counter change for it, and the record is untouched.
Area boundaries are exempt: their crossings are gated only by the
`peopleInside` membership state machine (see the counterexample). -/
theorem c1_cooldown_amended (s : LMState) (sx sy : ℚ) (as : List Attempt)
    (hline : ∀ b ∈ s.lines, b.btype = "line")
    (hnodup : (s.lines.map Boundary.id).Nodup) :
    List.Pairwise (fun e1 e2 => e1.personId = e2.personId →
      e1.lineId = e2.lineId → e1.timestamp + 2000 ≤ e2.timestamp)
      (runAttempts s sx sy as).2 ∧
    (∀ t pp cp now b0 rc, alGet (crossKey t b0) s.crossedTracks = some rc →
      now < rc.timestamp + 2000 →
      (∀ ev ∈ (checkLineCrossings s t pp cp sx sy now).2, ev.lineId ≠ b0) ∧
      alGet b0 (checkLineCrossings s t pp cp sx sy now).1.lineCrossings =
        alGet b0 s.lineCrossings ∧
      alGet (crossKey t b0)
        (checkLineCrossings s t pp cp sx sy now).1.crossedTracks = some rc) := by
  refine ⟨runAttempts_cooldown sx sy as s hline hnodup, ?_⟩
  intro t pp cp now b0 rc hrec hcool
  obtain ⟨cl1, cl2, cl3, cl4, cl5, cl6, cl7⟩ :=
    checkLineCrossings_spec s t pp cp sx sy now hline hnodup
  have hnoev : ∀ ev ∈ (checkLineCrossings s t pp cp sx sy now).2,
      ev.lineId ≠ b0 := by
    intro ev hev he
    have := cl4 ev hev rc (by rw [he]; exact hrec)
    omega
  refine ⟨hnoev, cl6 b0 hnoev, ?_⟩
  have hpres := cl5 (crossKey t b0)
    (fun ev hev he => hnoev ev hev (crossKey_injective he).2.symm)
  rw [hpres]
  exact hrec

/-- Witness for `c1_cooldown_amended` on a one-line registry holding a
fresh cooldown record. -/
theorem c1_cooldown_amended_witness :
    List.Pairwise (fun e1 e2 => e1.personId = e2.personId →
      e1.lineId = e2.lineId → e1.timestamp + 2000 ≤ e2.timestamp)
      (runAttempts
        { lines := [mkLineB 3], nextLineId := 4,
          lineCrossings := [(3, ⟨0, 0⟩)], crossedTracks := [] }
        1 1 []).2 :=
  (c1_cooldown_amended
    { lines := [mkLineB 3], nextLineId := 4,
      lineCrossings := [(3, ⟨0, 0⟩)], crossedTracks := [] }
    1 1 [] (by decide) (by decide)).1

end Countin
